import Mathlib

/- A verification development for the archetype-based entity-component
   store implemented in `src/src/ecs.cpp` (module `ecs` of the
   Peredvizhnikov Engine).  Machine integers are modelled as `Nat` bit
   patterns, reduced modulo `2 ^ 64` (for `uint64_t`) or `2 ^ 128`
   (for `__int128`) exactly where the C++ arithmetic can wrap.  The
   component values stored in the columns are a type parameter `V`;
   component types themselves are represented by their component ids. -/

namespace pe

/-- Model of `entity_t = uint64_t`: an entity id, as the bit pattern of the counter. -/
abbrev entity_t : Type := Nat

/-- Model of `component_id_t = uint64_t`: a component id (kept below 128 by a
`static_assert` in `component_traits`). -/
abbrev component_id_t : Type := Nat

/-- Model of `component_bitfield_t = __int128`: modelled by its 128-bit two's
complement bit pattern, a natural number below `2 ^ 128`. -/
abbrev component_bitfield_t : Type := Nat

/-- Model of `inline constexpr std::size_t kMaxComponents = 128;` -/
def kMaxComponents : Nat := 128

/-- Modelled from the spec: the `FlatHashMap` collaborator (module
`flat_hash_map`, imported by `ecs.cpp` but not part of the sources
under verification).  Spec §4.2 requires `insert`/`upsert`, `erase`,
`get`, and a deterministic-per-snapshot iteration order that agrees
between sibling columns with identical insert/erase histories.  We
model the map as an association list in insertion order: inserting a
new key appends it, updating an existing key rewrites it in place, so
maps with identical histories iterate identically. -/
abbrev FMap (α β : Type) : Type := List (α × β)

/-- Model of `FlatHashMap::find`: the value stored under key `k`, if any. -/
def FMap.find? [DecidableEq α] (m : FMap α β) (k : α) : Option β :=
  match m with
  | [] => none
  | (k₀, v₀) :: t => if k₀ = k then some v₀ else FMap.find? t k

/-- The key sequence of the map, in iteration order. -/
def FMap.keys (m : FMap α β) : List α :=
  m.map Prod.fst

/-- Model of `FlatHashMap::insert` (std semantics): a no-op when the key is
already present, otherwise the pair is added (appended, preserving
iteration order of older entries). -/
def FMap.insertStd [DecidableEq α] (m : FMap α β) (k : α) (v : β) : FMap α β :=
  match FMap.find? m k with
  | some _ => m
  | none => m ++ [(k, v)]

/-- Upsert (`m[k] = v`): rewrite the entry in place when present,
append it otherwise. -/
def FMap.set [DecidableEq α] (m : FMap α β) (k : α) (v : β) : FMap α β :=
  match m with
  | [] => [(k, v)]
  | (k₀, v₀) :: t => if k₀ = k then (k, v) :: t else (k₀, v₀) :: FMap.set t k v

/-- Model of `m[k]` read (`operator[]`): return the stored value when present.
The spec gives `get` the precondition that the key is present and
leaves out-of-contract use undefined (§4.2, §4.8); as a total
representative we use the C++-map-style behaviour of default-inserting
`d` for an absent key.  Every theorem below that depends on a
subscript is proved under a presence hypothesis, which makes this
choice invisible. -/
def FMap.subscript [DecidableEq α] (m : FMap α β) (k : α) (d : β) : β × FMap α β :=
  match FMap.find? m k with
  | some v => (v, m)
  | none => (d, m ++ [(k, d)])

/-- Model of `FlatHashMap::erase`. -/
def FMap.erase [DecidableEq α] (m : FMap α β) (k : α) : FMap α β :=
  m.filter (fun p => p.1 ≠ k)

/-****************************************************************************-/
/- MAP LEMMAS                                                                 -/
/-****************************************************************************-/

section MapLemmas

variable [DecidableEq α]

theorem FMap.find?_isSome_iff_mem_keys (m : FMap α β) (k : α) :
    (FMap.find? m k).isSome = true ↔ k ∈ FMap.keys m := by
  induction m with
  | nil => simp [FMap.find?, FMap.keys]
  | cons p t ih =>
    obtain ⟨k₀, v₀⟩ := p
    by_cases h : k₀ = k
    · subst h
      simp [FMap.find?, FMap.keys]
    · simp [FMap.find?, FMap.keys, h, ih]
      intro he
      exact absurd he.symm h

theorem FMap.find?_eq_none_iff (m : FMap α β) (k : α) :
    FMap.find? m k = none ↔ k ∉ FMap.keys m := by
  rw [← FMap.find?_isSome_iff_mem_keys]
  cases FMap.find? m k <;> simp

theorem FMap.mem_keys_of_find? {m : FMap α β} {k : α} {v : β}
    (h : FMap.find? m k = some v) : k ∈ FMap.keys m := by
  rw [← FMap.find?_isSome_iff_mem_keys, h]
  rfl

theorem FMap.find?_append_left {m : FMap α β} {k : α} {v : β}
    (h : FMap.find? m k = some v) (l : FMap α β) :
    FMap.find? (m ++ l) k = some v := by
  induction m with
  | nil => exact absurd h (by simp [FMap.find?])
  | cons p t ih =>
    obtain ⟨k₀, v₀⟩ := p
    by_cases hk : k₀ = k
    · subst hk
      simp_all [FMap.find?]
    · simp_all [FMap.find?, hk]

theorem FMap.find?_append_right {m : FMap α β} {k : α}
    (h : FMap.find? m k = none) (l : FMap α β) :
    FMap.find? (m ++ l) k = FMap.find? l k := by
  induction m with
  | nil => simp [FMap.find?]
  | cons p t ih =>
    obtain ⟨k₀, v₀⟩ := p
    by_cases hk : k₀ = k
    · subst hk
      simp [FMap.find?] at h
    · simp_all [FMap.find?, hk]

theorem FMap.find?_singleton_self (k : α) (v : β) :
    FMap.find? [(k, v)] k = some v := by
  simp [FMap.find?]

theorem FMap.find?_set_self (m : FMap α β) (k : α) (v : β) :
    FMap.find? (FMap.set m k v) k = some v := by
  induction m with
  | nil => simp [FMap.set, FMap.find?]
  | cons p t ih =>
    obtain ⟨k₀, v₀⟩ := p
    by_cases hk : k₀ = k
    · subst hk
      simp [FMap.set, FMap.find?]
    · simp [FMap.set, FMap.find?, hk, ih]

theorem FMap.find?_set_ne (m : FMap α β) {k k' : α} (v : β) (h : k' ≠ k) :
    FMap.find? (FMap.set m k v) k' = FMap.find? m k' := by
  have hne : ¬ k = k' := fun he => h he.symm
  induction m with
  | nil => simp [FMap.set, FMap.find?, hne]
  | cons p t ih =>
    obtain ⟨k₀, v₀⟩ := p
    by_cases hk : k₀ = k
    · subst hk
      simp [FMap.set, FMap.find?, hne]
    · simp [FMap.set, FMap.find?, hk, ih]

theorem FMap.keys_set_of_mem {m : FMap α β} {k : α} (v : β)
    (h : k ∈ FMap.keys m) :
    FMap.keys (FMap.set m k v) = FMap.keys m := by
  induction m with
  | nil => simp [FMap.keys] at h
  | cons p t ih =>
    obtain ⟨k₀, v₀⟩ := p
    by_cases hk : k₀ = k
    · subst hk
      simp [FMap.set, FMap.keys]
    · have ht : k ∈ FMap.keys t := by
        rcases List.mem_cons.mp h with h1 | h1
        · exact absurd h1.symm hk
        · exact h1
      simp only [FMap.set, if_neg hk, FMap.keys, List.map_cons]
      rw [show (FMap.set t k v).map Prod.fst = FMap.keys (FMap.set t k v) from rfl,
          ih ht]
      rfl

theorem FMap.keys_set_of_not_mem {m : FMap α β} {k : α} (v : β)
    (h : k ∉ FMap.keys m) :
    FMap.keys (FMap.set m k v) = FMap.keys m ++ [k] := by
  induction m with
  | nil => simp [FMap.set, FMap.keys]
  | cons p t ih =>
    obtain ⟨k₀, v₀⟩ := p
    have hk : k₀ ≠ k := by
      intro he
      exact h (by simp [FMap.keys, he])
    have ht : k ∉ FMap.keys t := by
      intro hm
      apply h
      simp only [FMap.keys, List.map_cons]
      exact List.mem_cons_of_mem _ hm
    simp only [FMap.set, if_neg hk, FMap.keys, List.map_cons]
    rw [show (FMap.set t k v).map Prod.fst = FMap.keys (FMap.set t k v) from rfl,
        ih ht]
    rfl

theorem FMap.subscript_of_find? {m : FMap α β} {k : α} {v : β}
    (h : FMap.find? m k = some v) (d : β) :
    FMap.subscript m k d = (v, m) := by
  simp [FMap.subscript, h]

theorem FMap.subscript_of_none {m : FMap α β} {k : α}
    (h : FMap.find? m k = none) (d : β) :
    FMap.subscript m k d = (d, m ++ [(k, d)]) := by
  simp [FMap.subscript, h]

theorem FMap.insertStd_of_find? {m : FMap α β} {k : α} {w : β}
    (h : FMap.find? m k = some w) (v : β) :
    FMap.insertStd m k v = m := by
  simp [FMap.insertStd, h]

theorem FMap.insertStd_of_none {m : FMap α β} {k : α}
    (h : FMap.find? m k = none) (v : β) :
    FMap.insertStd m k v = m ++ [(k, v)] := by
  simp [FMap.insertStd, h]

theorem FMap.find?_erase_self (m : FMap α β) (k : α) :
    FMap.find? (FMap.erase m k) k = none := by
  induction m with
  | nil => simp [FMap.erase, FMap.find?]
  | cons p t ih =>
    obtain ⟨k₀, v₀⟩ := p
    by_cases hk : k₀ = k
    · subst hk
      simpa [FMap.erase, FMap.find?] using ih
    · simpa [FMap.erase, FMap.find?, hk] using ih

theorem FMap.find?_erase_ne (m : FMap α β) {k k' : α} (h : k' ≠ k) :
    FMap.find? (FMap.erase m k) k' = FMap.find? m k' := by
  have hne : ¬ k = k' := fun he => h he.symm
  induction m with
  | nil => simp [FMap.erase, FMap.find?]
  | cons p t ih =>
    obtain ⟨k₀, v₀⟩ := p
    by_cases hk : k₀ = k
    · subst hk
      simpa [FMap.erase, FMap.find?, hne] using ih
    · simp [FMap.erase, FMap.find?, hk] at ih ⊢
      by_cases hk' : k₀ = k'
      · simp [hk']
      · simp [hk', ih]

end MapLemmas

/-****************************************************************************-/
/- COMPONENT BITMASKS                                                         -/
/-****************************************************************************-/

/-- Model of `component_bitfield<Tuple>` / `ecs_component_mask<Tuple>()`: the
compile-time mask of a component tuple, here given by the list of the
components' ids in declaration order.  The recursive helper computes
`component_bitfield_t{1} << id | helper<Tail...>::value`, a 128-bit
(`__int128`) computation, starting from `component_bitfield_t{}` for
the empty pack. -/
def ecs_component_mask (ids : List component_id_t) : component_bitfield_t :=
  ids.foldr (fun i acc => ((1 <<< i) % 2 ^ 128) ||| acc) 0

theorem ecs_component_mask_nil : ecs_component_mask [] = 0 := rfl

theorem ecs_component_mask_cons (i : component_id_t) (ids : List component_id_t) :
    ecs_component_mask (i :: ids) =
      ((1 <<< i) % 2 ^ 128) ||| ecs_component_mask ids := rfl

/-- Bit-level characterisation of the mask: for component ids below
`kMaxComponents = 128`, bit `b` of the computed mask is set iff `b`
occurs among the ids.  Shared helper used by several claims. -/
theorem testBit_ecs_component_mask (ids : List component_id_t)
    (hb : ∀ i ∈ ids, i < 128) (b : Nat) :
    (ecs_component_mask ids).testBit b = true ↔ b ∈ ids := by
  induction ids with
  | nil => simp [ecs_component_mask]
  | cons i t ih =>
    have hi : i < 128 := hb i (List.mem_cons_self i t)
    have ht : ∀ j ∈ t, j < 128 := fun j hj => hb j (List.mem_cons_of_mem i hj)
    have hpow : (1 <<< i) % 2 ^ 128 = 2 ^ i := by
      rw [Nat.shiftLeft_eq, one_mul]
      exact Nat.mod_eq_of_lt (Nat.pow_lt_pow_right (by norm_num) hi)
    rw [ecs_component_mask_cons, hpow]
    rw [Nat.testBit_or]
    constructor
    · intro h
      rcases Bool.or_eq_true_iff.mp h with h1 | h2
      · have hbi : i = b := by
          by_contra hne
          rw [Nat.testBit_two_pow_of_ne hne] at h1
          exact Bool.false_ne_true h1
        exact List.mem_cons.mpr (Or.inl hbi.symm)
      · exact List.mem_cons_of_mem i ((ih ht).mp h2)
    · intro h
      rcases List.mem_cons.mp h with h1 | h2
      · subst h1
        rw [Nat.testBit_two_pow_self]
        simp
      · rw [(ih ht).mpr h2]
        simp

/-****************************************************************************-/
/- ENTITY ID ALLOCATION                                                       -/
/-****************************************************************************-/

/-- Model of `s_next_entity_id`: value of the atomic `uint64_t` counter after
`n` completed `fetch_add(1, relaxed)` calls, starting from `{0}`. -/
def allocCounter : Nat → Nat
  | 0 => 0
  | n + 1 => (allocCounter n + 1) % 2 ^ 64

/-- Model of `World::AllocateID`: the id returned by the `(n+1)`-st call is the
counter value before its increment.  `fetch_add` is atomic, so even
concurrent calls linearise into such a sequence. -/
def AllocateID (n : Nat) : entity_t := allocCounter n

theorem allocCounter_eq (n : Nat) : allocCounter n = n % 2 ^ 64 := by
  induction n with
  | zero => rfl
  | succ n ih =>
    rw [allocCounter, ih]
    conv_rhs => rw [Nat.add_mod]
    norm_num

/-****************************************************************************-/
/- ARCHETYPE                                                                  -/
/-****************************************************************************-/

/-- Model of `Archetype<std::tuple<Components...>>`: one column (`FlatHashMap`
from entity id to component value) per component, addressed here by
the components' ids, in tuple declaration order.  The
`TypeErasedArchetype` dispatch table reaches a column through exactly
this per-id addressing. -/
abbrev Archetype (V : Type) : Type := FMap component_id_t (FMap entity_t V)

/-- A freshly constructed `Archetype<components_type>{}`: one empty
column per component of the shape. -/
def Archetype.ofShape (shape : List component_id_t) : Archetype V :=
  shape.map (fun c => (c, []))

/-- Model of `Archetype::Get<Component>(id)` (through the dispatch table):
subscript the component's column with the entity id.  `vinitC` is the
value-initialised component used by `operator[]` for an absent key
(see `FMap.subscript`).  A component id without a column in this
archetype is never dispatched by design (§4.3 of the spec); the model
makes that case a read of `vinitC` with no state change. -/
def Archetype.Get (a : Archetype V) (c : component_id_t) (vinitC : V)
    (id : entity_t) : V × Archetype V :=
  match FMap.find? a c with
  | none => (vinitC, a)
  | some col =>
    let vc := FMap.subscript col id vinitC
    (vc.1, FMap.set a c vc.2)

/-- Model of `Archetype::Set<Component>(id, value)`: upsert into the
component's column.  A missing column is never dispatched by design;
the model leaves the archetype unchanged in that case. -/
def Archetype.Set (a : Archetype V) (c : component_id_t) (id : entity_t)
    (v : V) : Archetype V :=
  match FMap.find? a c with
  | none => a
  | some col => FMap.set a c (FMap.set col id v)

/-- Model of `Archetype::Clear<Component>(id)`: erase the entity's cell from
the component's column. -/
def Archetype.Clear (a : Archetype V) (c : component_id_t)
    (id : entity_t) : Archetype V :=
  match FMap.find? a c with
  | none => a
  | some col => FMap.set a c (FMap.erase col id)

/-- Model of `drop_row<components_type>`: clear the entity's cell from every
component column of its shape, in pack order. -/
def drop_row (shape : List component_id_t) (a : Archetype V)
    (eid : entity_t) : Archetype V :=
  shape.foldl (fun a c => Archetype.Clear a c eid) a

/-- Model of `add_row<entity_type, components_type>::set_cell<Component>`:
store the compile-time `Default<derived, Component>::value` when that
trait is specified, and the value-initialised component otherwise.
`dflt c` models the presence of a `Default` specialisation for the
shape and component id `c`; `vinit c` models the value-initialised
component. -/
def set_cell (vinit : component_id_t → V) (dflt : component_id_t → Option V)
    (a : Archetype V) (c : component_id_t) (eid : entity_t) : Archetype V :=
  match dflt c with
  | some d => Archetype.Set a c eid d
  | none => Archetype.Set a c eid (vinit c)

/-- Model of `add_row<entity_type, components_type>::operator()`: run
`set_cell` for every component of the shape, in pack order. -/
def add_row (vinit : component_id_t → V) (dflt : component_id_t → Option V)
    (shape : List component_id_t) (a : Archetype V)
    (eid : entity_t) : Archetype V :=
  shape.foldl (fun a c => set_cell vinit dflt a c eid) a

/-****************************************************************************-/
/- ARCHETYPE LEMMAS                                                           -/
/-****************************************************************************-/

theorem set_cell_eq (vinit : component_id_t → V) (dflt : component_id_t → Option V)
    (a : Archetype V) (c : component_id_t) (eid : entity_t) :
    set_cell vinit dflt a c eid = Archetype.Set a c eid ((dflt c).getD (vinit c)) := by
  cases h : dflt c <;> simp [set_cell, h]

theorem Archetype.find?_Set_self {a : Archetype V} {c : component_id_t}
    {col : FMap entity_t V} (h : FMap.find? a c = some col)
    (id : entity_t) (v : V) :
    FMap.find? (Archetype.Set a c id v) c = some (FMap.set col id v) := by
  simp [Archetype.Set, h, FMap.find?_set_self]

theorem Archetype.find?_Set_ne (a : Archetype V) {c c' : component_id_t}
    (h : c' ≠ c) (id : entity_t) (v : V) :
    FMap.find? (Archetype.Set a c id v) c' = FMap.find? a c' := by
  unfold Archetype.Set
  cases hc : FMap.find? a c with
  | none => rfl
  | some col => exact FMap.find?_set_ne a _ h

theorem Archetype.keys_Set (a : Archetype V) (c : component_id_t)
    (id : entity_t) (v : V) :
    FMap.keys (Archetype.Set a c id v) = FMap.keys a := by
  unfold Archetype.Set
  cases hc : FMap.find? a c with
  | none => rfl
  | some col => exact FMap.keys_set_of_mem _ (FMap.mem_keys_of_find? hc)

theorem Archetype.isSome_Set (a : Archetype V) (c c' : component_id_t)
    (id : entity_t) (v : V) :
    (FMap.find? (Archetype.Set a c id v) c').isSome = (FMap.find? a c').isSome := by
  by_cases h : c' = c
  · subst h
    unfold Archetype.Set
    cases hc : FMap.find? a c' with
    | none => simp [hc]
    | some col => simp [hc, FMap.find?_set_self]
  · rw [Archetype.find?_Set_ne a h]

theorem Archetype.find?_Clear_ne (a : Archetype V) {c c' : component_id_t}
    (h : c' ≠ c) (id : entity_t) :
    FMap.find? (Archetype.Clear a c id) c' = FMap.find? a c' := by
  unfold Archetype.Clear
  cases hc : FMap.find? a c with
  | none => rfl
  | some col => exact FMap.find?_set_ne a _ h

theorem Archetype.keys_Clear (a : Archetype V) (c : component_id_t)
    (id : entity_t) :
    FMap.keys (Archetype.Clear a c id) = FMap.keys a := by
  unfold Archetype.Clear
  cases hc : FMap.find? a c with
  | none => rfl
  | some col => exact FMap.keys_set_of_mem _ (FMap.mem_keys_of_find? hc)

/-- After `Clear<Component>(id)`, the component's column (if it is
there at all) has no cell keyed by `id`. -/
theorem Archetype.Clear_self_absent (a : Archetype V) (c : component_id_t)
    (id : entity_t) {col' : FMap entity_t V}
    (h : FMap.find? (Archetype.Clear a c id) c = some col') :
    FMap.find? col' id = none := by
  unfold Archetype.Clear at h
  cases hc : FMap.find? a c with
  | none =>
    rw [hc] at h
    simp [hc] at h
  | some col =>
    rw [hc] at h
    rw [FMap.find?_set_self] at h
    cases h
    exact FMap.find?_erase_self col id

theorem Archetype.keys_Get_snd (a : Archetype V) (c : component_id_t)
    (vc : V) (id : entity_t) :
    FMap.keys (Archetype.Get a c vc id).2 = FMap.keys a := by
  unfold Archetype.Get
  cases hc : FMap.find? a c with
  | none => rfl
  | some col => exact FMap.keys_set_of_mem _ (FMap.mem_keys_of_find? hc)

/-- Model of `add_row` never touches a column outside the shape. -/
theorem add_row_find?_not_mem (vinit : component_id_t → V)
    (dflt : component_id_t → Option V) (shape : List component_id_t)
    (a : Archetype V) (id : entity_t) {c : component_id_t} (hc : c ∉ shape) :
    FMap.find? (add_row vinit dflt shape a id) c = FMap.find? a c := by
  induction shape generalizing a with
  | nil => rfl
  | cons c₀ rest ih =>
    have hc₀ : c ≠ c₀ := fun he => hc (he ▸ List.mem_cons_self c₀ rest)
    have hrest : c ∉ rest := fun hm => hc (List.mem_cons_of_mem c₀ hm)
    rw [add_row, List.foldl_cons, ← add_row, ih _ hrest, set_cell_eq,
        Archetype.find?_Set_ne a hc₀]

theorem add_row_keys (vinit : component_id_t → V)
    (dflt : component_id_t → Option V) (shape : List component_id_t)
    (a : Archetype V) (id : entity_t) :
    FMap.keys (add_row vinit dflt shape a id) = FMap.keys a := by
  induction shape generalizing a with
  | nil => rfl
  | cons c₀ rest ih =>
    rw [add_row, List.foldl_cons, ← add_row, ih, set_cell_eq, Archetype.keys_Set]

/-- After `add_row` over a shape whose columns are all present, every
component of the shape holds, for the new entity, its `Default` value
when specified and the value-initialised component otherwise. -/
theorem add_row_spec (vinit : component_id_t → V)
    (dflt : component_id_t → Option V) (shape : List component_id_t)
    (a : Archetype V) (id : entity_t)
    (hcols : ∀ c ∈ shape, (FMap.find? a c).isSome = true) :
    ∀ c ∈ shape, ∃ col, FMap.find? (add_row vinit dflt shape a id) c = some col ∧
      FMap.find? col id = some ((dflt c).getD (vinit c)) := by
  induction shape generalizing a with
  | nil => intro c hc; simp at hc
  | cons c₀ rest ih =>
    intro c hc
    have ha' : ∀ c ∈ rest, (FMap.find? (set_cell vinit dflt a c₀ id) c).isSome = true := by
      intro c' hc'
      rw [set_cell_eq, Archetype.isSome_Set]
      exact hcols c' (List.mem_cons_of_mem c₀ hc')
    by_cases hmem : c ∈ rest
    · rw [add_row, List.foldl_cons, ← add_row]
      exact ih _ ha' c hmem
    · have hcc₀ : c = c₀ := by
        rcases List.mem_cons.mp hc with h1 | h1
        · exact h1
        · exact absurd h1 hmem
      subst hcc₀
      obtain ⟨col, hcol⟩ := Option.isSome_iff_exists.mp (hcols c (List.mem_cons_self c rest))
      refine ⟨FMap.set col id ((dflt c).getD (vinit c)), ?_, FMap.find?_set_self col id _⟩
      rw [add_row, List.foldl_cons, ← add_row, add_row_find?_not_mem _ _ _ _ _ hmem,
          set_cell_eq]
      exact Archetype.find?_Set_self hcol id _

/-- Model of `drop_row` never touches a column outside the shape. -/
theorem drop_row_find?_not_mem (shape : List component_id_t)
    (a : Archetype V) (id : entity_t) {c : component_id_t} (hc : c ∉ shape) :
    FMap.find? (drop_row shape a id) c = FMap.find? a c := by
  induction shape generalizing a with
  | nil => rfl
  | cons c₀ rest ih =>
    have hc₀ : c ≠ c₀ := fun he => hc (he ▸ List.mem_cons_self c₀ rest)
    have hrest : c ∉ rest := fun hm => hc (List.mem_cons_of_mem c₀ hm)
    rw [drop_row, List.foldl_cons, ← drop_row, ih _ hrest,
        Archetype.find?_Clear_ne a hc₀]

theorem drop_row_keys (shape : List component_id_t) (a : Archetype V)
    (id : entity_t) :
    FMap.keys (drop_row shape a id) = FMap.keys a := by
  induction shape generalizing a with
  | nil => rfl
  | cons c₀ rest ih =>
    rw [drop_row, List.foldl_cons, ← drop_row, ih, Archetype.keys_Clear]

/-- A cell already absent from a column stays absent under `drop_row`
(the fold only ever erases). -/
theorem drop_row_absent_mono (shape : List component_id_t) (a : Archetype V)
    (id : entity_t) {c : component_id_t}
    (h : ∀ col, FMap.find? a c = some col → FMap.find? col id = none) :
    ∀ col', FMap.find? (drop_row shape a id) c = some col' →
      FMap.find? col' id = none := by
  induction shape generalizing a with
  | nil => exact h
  | cons c₀ rest ih =>
    rw [drop_row, List.foldl_cons, ← drop_row]
    apply ih
    intro col hcol
    by_cases hcc : c = c₀
    · subst hcc
      exact Archetype.Clear_self_absent a c id hcol
    · rw [Archetype.find?_Clear_ne a hcc] at hcol
      exact h col hcol

/-- After `drop_row` over a shape, every column of the shape has no
cell keyed by the dropped entity. -/
theorem drop_row_spec (shape : List component_id_t) (a : Archetype V)
    (id : entity_t) :
    ∀ c ∈ shape, ∀ col', FMap.find? (drop_row shape a id) c = some col' →
      FMap.find? col' id = none := by
  induction shape generalizing a with
  | nil => intro c hc; simp at hc
  | cons c₀ rest ih =>
    intro c hc
    rw [drop_row, List.foldl_cons, ← drop_row]
    by_cases hmem : c ∈ rest
    · exact ih _ c hmem
    · have hcc₀ : c = c₀ := by
        rcases List.mem_cons.mp hc with h1 | h1
        · exact h1
        · exact absurd h1 hmem
      subst hcc₀
      apply drop_row_absent_mono
      intro col hcol
      exact Archetype.Clear_self_absent a c id hcol

/-- Every column of a freshly created archetype table is present. -/
theorem Archetype.ofShape_isSome (shape : List component_id_t)
    {c : component_id_t} (hc : c ∈ shape) :
    (FMap.find? (Archetype.ofShape (V := V) shape) c).isSome = true := by
  induction shape with
  | nil => simp at hc
  | cons c₀ rest ih =>
    by_cases h : c₀ = c
    · simp [Archetype.ofShape, FMap.find?, h]
    · rcases List.mem_cons.mp hc with h1 | h1
      · exact absurd h1.symm h
      · simpa [Archetype.ofShape, FMap.find?, h] using ih h1

/-****************************************************************************-/
/- WORLD STATE                                                                -/
/-****************************************************************************-/

/-- The static state of `World<Tag>` for one tag: the entity-id
counter, the archetype index (`s_component_trie`, as the list of
inserted masks in insertion order), the archetype store
(`s_component_archetype_map`) and the entity registry
(`s_entity_archetype_map`). -/
structure WState (V : Type) where
  nextId : Nat
  trie : List component_bitfield_t
  store : FMap component_bitfield_t (Archetype V)
  registry : FMap entity_t component_bitfield_t

/-- The initial (empty) world. -/
def WState.init : WState V := ⟨0, [], [], []⟩

/-- Model of `World::Register(entity, components)`: create the archetype table
and index its mask when the mask is new, record the entity in the
registry, then `add_row` the entity into the table through
`s_component_archetype_map[components]`. -/
def Register (vinit : component_id_t → V) (dflt : component_id_t → Option V)
    (shape : List component_id_t) (id : entity_t) (s : WState V) : WState V :=
  let mask := ecs_component_mask shape
  let storeTrie :=
    match FMap.find? s.store mask with
    | some _ => (s.store, s.trie)
    | none => (FMap.insertStd s.store mask (Archetype.ofShape shape),
               s.trie ++ [mask])
  let reg₁ := FMap.insertStd s.registry id mask
  let as := FMap.subscript storeTrie.1 mask []
  { nextId := s.nextId
    trie := storeTrie.2
    store := FMap.set as.2 mask (add_row vinit dflt shape as.1 id)
    registry := reg₁ }

/-- Model of `World::Unregister(entity)`: look the entity's mask up in the
registry, fetch the archetype table and `drop_row` the entity from it.
Nothing is erased from the registry, the store or the trie. -/
def Unregister (shape : List component_id_t) (id : entity_t)
    (s : WState V) : WState V :=
  let rs := FMap.subscript s.registry id 0
  let as := FMap.subscript s.store rs.1 []
  { nextId := s.nextId
    trie := s.trie
    store := FMap.set as.2 rs.1 (drop_row shape as.1 id)
    registry := rs.2 }

/-- Model of `Entity::Entity()`: initialise `m_id` from `World::AllocateID()`
(an atomic `uint64_t` fetch-add) and `Register` with the compile-time
mask of the shape.  Returns the new handle's id with the new state. -/
def Entity.construct (vinit : component_id_t → V)
    (dflt : component_id_t → Option V) (shape : List component_id_t)
    (s : WState V) : entity_t × WState V :=
  let id := s.nextId % 2 ^ 64
  (id, Register vinit dflt shape id
        { s with nextId := (s.nextId % 2 ^ 64 + 1) % 2 ^ 64 })

/-- Model of `Entity::~Entity()`: `World::Unregister(*this)`. -/
def Entity.destruct (shape : List component_id_t) (id : entity_t)
    (s : WState V) : WState V :=
  Unregister shape id s

/-- Model of `Entity::Get<Component>()`: read the entity's mask from
`s_entity_archetype_map[m_id]`, the table from
`s_component_archetype_map[components]`, then return the component by
value from the table. -/
def Entity.Get (vinit : component_id_t → V) (c : component_id_t)
    (id : entity_t) (s : WState V) : V × WState V :=
  let rs := FMap.subscript s.registry id 0
  let as := FMap.subscript s.store rs.1 []
  let va := Archetype.Get as.1 c (vinit c) id
  (va.1, { s with registry := rs.2, store := FMap.set as.2 rs.1 va.2 })

/-- Model of `Entity::Set<Component>(value)`: read the entity's mask and table
as in `Get`, then upsert the component value. -/
def Entity.Set (c : component_id_t) (v : V) (id : entity_t)
    (s : WState V) : WState V :=
  let rs := FMap.subscript s.registry id 0
  let as := FMap.subscript s.store rs.1 []
  { s with registry := rs.2,
           store := FMap.set as.2 rs.1 (Archetype.Set as.1 c id v) }

/-- Model of `Entity::HasComponent<Component>()`: read the entity's registered
mask from `s_entity_archetype_map[m_id]` and test the component's bit
with a 128-bit mask-and. -/
def Entity.HasComponent (c : component_id_t) (id : entity_t)
    (s : WState V) : Bool × WState V :=
  let rs := FMap.subscript s.registry id 0
  let bit := (1 <<< c) % 2 ^ 128
  (decide ((rs.1 &&& bit) = bit), { s with registry := rs.2 })

/-****************************************************************************-/
/- CLAIM THEOREMS: BITMASK, ID ALLOCATION, HASCOMPONENT                       -/
/-****************************************************************************-/

/-- Shared helper: a 128-bit mask-and with a single component bit
tests exactly that bit of the mask. -/
theorem land_two_pow_eq_iff (mask : component_bitfield_t) (c : Nat) :
    (mask &&& 2 ^ c = 2 ^ c) ↔ mask.testBit c = true := by
  rw [Nat.and_two_pow]
  cases h : mask.testBit c with
  | false =>
    simp only [Bool.toNat_false, Nat.zero_mul]
    exact iff_of_false (pow_pos (by norm_num : (0:ℕ) < 2) c).ne Bool.false_ne_true
  | true =>
    simp only [Bool.toNat_true, Nat.one_mul]

/-- C4: for every shape whose component ids `T1..Tn` are all in
`[0, 128)`, the compile-time bitmask built by
`component_bitfield`/`ecs_component_mask` — the 128-bit OR of the
shifted bits `1 << id` — has bit `i` set iff component id `i` is in
the shape's set (including id 127). -/
theorem C4_bitmask_bits (ids : List component_id_t)
    (hb : ∀ i ∈ ids, i < 128) (b : Nat) :
    (ecs_component_mask ids).testBit b = true ↔ b ∈ ids :=
  testBit_ecs_component_mask ids hb b

theorem C4_bitmask_bits_witness :
    (∀ i ∈ [0, 5, 127], i < 128) ∧
    (((ecs_component_mask [0, 5, 127]).testBit 127 = true ↔ 127 ∈ [0, 5, 127]) ∧
     ((ecs_component_mask [0, 5, 127]).testBit 1 = true ↔ 1 ∈ [0, 5, 127])) :=
  ⟨by decide,
   C4_bitmask_bits [0, 5, 127] (by decide) 127,
   C4_bitmask_bits [0, 5, 127] (by decide) 1⟩

/-- C6: entity ids are allocated monotonically by the atomic
`fetch_add` counter: within a process lifetime of fewer than `2 ^ 64`
allocations, a later call returns a strictly greater id than every
earlier call, and no id is ever returned twice, so no two live
handles (each initialised from one `AllocateID()` call) share an id. -/
theorem C6_alloc_monotonic (m n : Nat) (hmn : m < n) (hn : n < 2 ^ 64) :
    AllocateID m < AllocateID n ∧ AllocateID m ≠ AllocateID n := by
  have hm : m < 2 ^ 64 := lt_trans hmn hn
  rw [AllocateID, AllocateID, allocCounter_eq, allocCounter_eq,
      Nat.mod_eq_of_lt hm, Nat.mod_eq_of_lt hn]
  exact ⟨hmn, Nat.ne_of_lt hmn⟩

theorem C6_alloc_monotonic_witness :
    2 < 7 ∧ 7 < 2 ^ 64 ∧
    (AllocateID 2 < AllocateID 7 ∧ AllocateID 2 ≠ AllocateID 7) :=
  ⟨by decide, by decide, C6_alloc_monotonic 2 7 (by decide) (by decide)⟩

/-- C7: for a live handle of shape `S` registered under the shape's
mask, `HasComponent<C>()` computes a runtime mask-and of the
registered mask with `1 << id_of<C>`, which holds iff the component's
bit is set in that mask, i.e. iff `C` is a member of `S`. -/
theorem C7_HasComponent (V : Type) (s : WState V)
    (shape : List component_id_t) (id : entity_t) (c : component_id_t)
    (hreg : FMap.find? s.registry id = some (ecs_component_mask shape))
    (hshape : ∀ i ∈ shape, i < 128) (hc : c < 128) :
    (Entity.HasComponent c id s).1
      = (ecs_component_mask shape).testBit c ∧
    ((Entity.HasComponent c id s).1 = true ↔ c ∈ shape) := by
  have hpow : (1 <<< c) % 2 ^ 128 = 2 ^ c := by
    rw [Nat.shiftLeft_eq, one_mul]
    exact Nat.mod_eq_of_lt (Nat.pow_lt_pow_right (by norm_num) hc)
  have h1 : (Entity.HasComponent c id s).1
      = decide (ecs_component_mask shape &&& 2 ^ c = 2 ^ c) := by
    simp only [Entity.HasComponent, FMap.subscript_of_find? hreg, hpow]
  constructor
  · rw [h1]
    cases h : (ecs_component_mask shape).testBit c with
    | true => rw [decide_eq_true ((land_two_pow_eq_iff _ c).mpr h)]
    | false =>
      rw [decide_eq_false]
      intro hand
      rw [(land_two_pow_eq_iff _ c).mp hand] at h
      exact Bool.false_ne_true h.symm
  · rw [h1]
    rw [decide_eq_true_eq, land_two_pow_eq_iff]
    exact testBit_ecs_component_mask shape hshape c

theorem C7_HasComponent_witness :
    FMap.find?
        (Entity.construct (fun _ => (0 : Nat)) (fun _ => none) [0, 2]
          WState.init).2.registry 0 = some (ecs_component_mask [0, 2]) ∧
    (∀ i ∈ [0, 2], i < 128) ∧ 2 < 128 ∧
    ((Entity.HasComponent 2 0
        (Entity.construct (fun _ => (0 : Nat)) (fun _ => none) [0, 2]
          WState.init).2).1
      = (ecs_component_mask [0, 2]).testBit 2 ∧
     ((Entity.HasComponent 2 0
        (Entity.construct (fun _ => (0 : Nat)) (fun _ => none) [0, 2]
          WState.init).2).1 = true ↔ 2 ∈ [0, 2])) :=
  ⟨by decide, by decide, by decide,
   C7_HasComponent Nat _ [0, 2] 0 2 (by decide) (by decide) (by decide)⟩

/-****************************************************************************-/
/- REGISTER / UNREGISTER LEMMAS                                               -/
/-****************************************************************************-/

theorem FMap.find?_append_cases [DecidableEq α] {m : FMap α β} {k k' : α}
    {v w : β} (h : FMap.find? (m ++ [(k, v)]) k' = some w) :
    FMap.find? m k' = some w ∨ (k' = k ∧ w = v) := by
  cases hm : FMap.find? m k' with
  | some u =>
    rw [FMap.find?_append_left hm] at h
    exact Or.inl h
  | none =>
    rw [FMap.find?_append_right hm] at h
    rw [FMap.find?] at h
    by_cases hk : k = k'
    · subst hk
      simp at h
      exact Or.inr ⟨rfl, h.symm⟩
    · simp [hk, FMap.find?] at h

/-- The table stored under the shape's mask before `add_row` runs: the
already existing table, or the freshly created
`Archetype<components_type>{}`. -/
def registerBase (s : WState V) (shape : List component_id_t) : Archetype V :=
  match FMap.find? s.store (ecs_component_mask shape) with
  | some a => a
  | none => Archetype.ofShape shape

/-- Model of `Register` when the shape's mask already has a table (`find !=
end`): no store/trie insertion, only the registry record and the
`add_row`. -/
theorem Register_eq_some {s : WState V} {shape : List component_id_t}
    {a : Archetype V}
    (hm : FMap.find? s.store (ecs_component_mask shape) = some a)
    (vinit : component_id_t → V) (dflt : component_id_t → Option V)
    (id : entity_t) :
    Register vinit dflt shape id s =
      { nextId := s.nextId
        trie := s.trie
        store := FMap.set s.store (ecs_component_mask shape)
                   (add_row vinit dflt shape a id)
        registry := FMap.insertStd s.registry id (ecs_component_mask shape) } := by
  simp only [Register, hm, FMap.subscript_of_find? hm]

/-- Model of `Register` when the shape's mask is new: the fresh
`Archetype<components_type>{}` is added to the store, the mask is
inserted into the trie, and the row is added to the fresh table. -/
theorem Register_eq_none {s : WState V} {shape : List component_id_t}
    (hm : FMap.find? s.store (ecs_component_mask shape) = none)
    (vinit : component_id_t → V) (dflt : component_id_t → Option V)
    (id : entity_t) :
    Register vinit dflt shape id s =
      { nextId := s.nextId
        trie := s.trie ++ [ecs_component_mask shape]
        store := FMap.set
                   (s.store ++ [(ecs_component_mask shape, Archetype.ofShape shape)])
                   (ecs_component_mask shape)
                   (add_row vinit dflt shape (Archetype.ofShape shape) id)
        registry := FMap.insertStd s.registry id (ecs_component_mask shape) } := by
  have happ : FMap.find?
      (s.store ++ [(ecs_component_mask shape, Archetype.ofShape shape)])
      (ecs_component_mask shape) = some (Archetype.ofShape shape) := by
    rw [FMap.find?_append_right hm, FMap.find?_singleton_self]
  simp only [Register, hm, FMap.insertStd_of_none hm, FMap.subscript_of_find? happ]

theorem Register_store_self (vinit : component_id_t → V)
    (dflt : component_id_t → Option V) (shape : List component_id_t)
    (id : entity_t) (s : WState V) :
    FMap.find? (Register vinit dflt shape id s).store (ecs_component_mask shape)
      = some (add_row vinit dflt shape (registerBase s shape) id) := by
  cases hm : FMap.find? s.store (ecs_component_mask shape) with
  | some a =>
    have hbase : registerBase s shape = a := by
      unfold registerBase
      rw [hm]
    rw [Register_eq_some hm, hbase]
    exact FMap.find?_set_self _ _ _
  | none =>
    have hbase : registerBase s shape = Archetype.ofShape shape := by
      unfold registerBase
      rw [hm]
    rw [Register_eq_none hm, hbase]
    exact FMap.find?_set_self _ _ _

theorem Register_registry (vinit : component_id_t → V)
    (dflt : component_id_t → Option V) (shape : List component_id_t)
    (id : entity_t) (s : WState V) :
    (Register vinit dflt shape id s).registry
      = FMap.insertStd s.registry id (ecs_component_mask shape) := by
  cases hm : FMap.find? s.store (ecs_component_mask shape) with
  | some a => rw [Register_eq_some hm]
  | none => rw [Register_eq_none hm]

theorem registerBase_isSome (s : WState V) (shape : List component_id_t)
    (hcols : ∀ a, FMap.find? s.store (ecs_component_mask shape) = some a →
      ∀ c ∈ shape, (FMap.find? a c).isSome = true) :
    ∀ c ∈ shape, (FMap.find? (registerBase s shape) c).isSome = true := by
  unfold registerBase
  cases hm : FMap.find? s.store (ecs_component_mask shape) with
  | some a => exact hcols a hm
  | none => exact fun c hc => Archetype.ofShape_isSome shape hc

/-****************************************************************************-/
/- CLAIM THEOREMS: DEFAULTS (C5)                                              -/
/-****************************************************************************-/

/-- C5: immediately after constructing a handle of shape `S` (with a
fresh id), for every component `C` of `S`, `Get<C>()` returns the
compile-time `Default<S, C>::value` when that trait is specified and
the value-initialised component otherwise, no `Set<C>` intervening.
The hypothesis `hcols` states that a pre-existing table under the
shape's mask has a column for each component of the shape — the way
every table is created. -/
theorem C5_default_values (V : Type) (vinit : component_id_t → V)
    (dflt : component_id_t → Option V) (shape : List component_id_t)
    (s : WState V) (c : component_id_t) (hc : c ∈ shape)
    (hfresh : FMap.find? s.registry (s.nextId % 2 ^ 64) = none)
    (hcols : ∀ a, FMap.find? s.store (ecs_component_mask shape) = some a →
      ∀ c' ∈ shape, (FMap.find? a c').isSome = true) :
    (Entity.Get vinit c (Entity.construct vinit dflt shape s).1
        (Entity.construct vinit dflt shape s).2).1
      = (dflt c).getD (vinit c) := by
  set id := s.nextId % 2 ^ 64 with hid
  set mask := ecs_component_mask shape with hmask
  set s₁ : WState V := { s with nextId := (s.nextId % 2 ^ 64 + 1) % 2 ^ 64 } with hs₁
  have hcon1 : (Entity.construct vinit dflt shape s).1 = id := rfl
  have hcon2 : (Entity.construct vinit dflt shape s).2
      = Register vinit dflt shape id s₁ := rfl
  rw [hcon1, hcon2]
  have hregy : (Register vinit dflt shape id s₁).registry
      = s.registry ++ [(id, mask)] := by
    rw [Register_registry, show s₁.registry = s.registry from rfl,
        FMap.insertStd_of_none hfresh]
  have hfind : FMap.find? (Register vinit dflt shape id s₁).registry id
      = some mask := by
    rw [hregy, FMap.find?_append_right hfresh, FMap.find?_singleton_self]
  have hstore : FMap.find? (Register vinit dflt shape id s₁).store mask
      = some (add_row vinit dflt shape (registerBase s₁ shape) id) :=
    Register_store_self vinit dflt shape id s₁
  obtain ⟨col, hcol, hval⟩ :=
    add_row_spec vinit dflt shape (registerBase s₁ shape) id
      (registerBase_isSome s₁ shape (fun a ha => hcols a ha)) c hc
  simp only [Entity.Get, FMap.subscript_of_find? hfind,
             FMap.subscript_of_find? hstore, Archetype.Get, hcol,
             FMap.subscript_of_find? hval]

theorem C5_default_values_witness :
    2 ∈ [0, 2] ∧
    FMap.find? (WState.init (V := Nat)).registry
      ((WState.init (V := Nat)).nextId % 2 ^ 64) = none ∧
    (Entity.Get (fun _ => (0 : Nat))  2
        (Entity.construct (fun _ => (0 : Nat))
          (fun c => if c = 2 then some 7 else none) [0, 2] WState.init).1
        (Entity.construct (fun _ => (0 : Nat))
          (fun c => if c = 2 then some 7 else none) [0, 2] WState.init).2).1
      = ((if (2:Nat) = 2 then some (7:Nat) else none)).getD 0 :=
  ⟨by decide, by decide,
   C5_default_values Nat (fun _ => 0) (fun c => if c = 2 then some 7 else none)
     [0, 2] WState.init 2 (by decide) (by decide)
     (fun a ha => by rw [show FMap.find? (WState.init (V := Nat)).store
        (ecs_component_mask [0, 2]) = none from rfl] at ha; cases ha)⟩

/-****************************************************************************-/
/- CLAIM THEOREMS: SET FRAME (C9)                                             -/
/-****************************************************************************-/

/-- C9: for a live entity registered under `mask` whose table has a
column for `c`, `Entity::Set<C>(v)` rewrites only the cell keyed by
the entity in the `C` column of its table: the registry, trie,
counter, the store's key set, every other table, every other column
of the table, and every other cell of the `C` column are unchanged. -/
theorem C9_set_frame (V : Type) (s : WState V) (id : entity_t)
    (mask : component_bitfield_t) (a : Archetype V)
    (col : FMap entity_t V) (c : component_id_t) (v : V)
    (hreg : FMap.find? s.registry id = some mask)
    (hstore : FMap.find? s.store mask = some a)
    (hcol : FMap.find? a c = some col) :
    (Entity.Set c v id s).registry = s.registry ∧
    (Entity.Set c v id s).trie = s.trie ∧
    (Entity.Set c v id s).nextId = s.nextId ∧
    FMap.keys (Entity.Set c v id s).store = FMap.keys s.store ∧
    (∀ m, m ≠ mask →
      FMap.find? (Entity.Set c v id s).store m = FMap.find? s.store m) ∧
    FMap.find? (Entity.Set c v id s).store mask
      = some (Archetype.Set a c id v) ∧
    (∀ c', c' ≠ c →
      FMap.find? (Archetype.Set a c id v) c' = FMap.find? a c') ∧
    FMap.find? (Archetype.Set a c id v) c = some (FMap.set col id v) ∧
    (∀ e, e ≠ id → FMap.find? (FMap.set col id v) e = FMap.find? col e) ∧
    FMap.find? (FMap.set col id v) id = some v := by
  have hset : Entity.Set c v id s
      = { s with registry := s.registry,
                 store := FMap.set s.store mask (Archetype.Set a c id v) } := by
    simp only [Entity.Set, FMap.subscript_of_find? hreg,
               FMap.subscript_of_find? hstore]
  rw [hset]
  refine ⟨rfl, rfl, rfl, ?_, ?_, ?_, ?_, ?_, ?_, ?_⟩
  · exact FMap.keys_set_of_mem _ (FMap.mem_keys_of_find? hstore)
  · exact fun m hm => FMap.find?_set_ne s.store _ hm
  · exact FMap.find?_set_self s.store mask _
  · exact fun c' hc' => Archetype.find?_Set_ne a hc' id v
  · exact Archetype.find?_Set_self hcol id v
  · exact fun e he => FMap.find?_set_ne col v he
  · exact FMap.find?_set_self col id v

theorem C9_set_frame_witness :
    FMap.find?
        (Entity.construct (fun _ => (0 : Nat)) (fun _ => none) [0, 2]
          WState.init).2.registry 0 = some 5 ∧
    FMap.find?
        (Entity.construct (fun _ => (0 : Nat)) (fun _ => none) [0, 2]
          WState.init).2.store 5 = some [(0, [(0, 0)]), (2, [(0, 0)])] ∧
    FMap.find? ([(0, [(0, 0)]), (2, [(0, 0)])] : Archetype Nat) 2
      = some [(0, 0)] ∧
    ((Entity.Set 2 9 0 (Entity.construct (fun _ => (0 : Nat)) (fun _ => none)
        [0, 2] WState.init).2).registry
      = (Entity.construct (fun _ => (0 : Nat)) (fun _ => none) [0, 2]
          WState.init).2.registry ∧
     (Entity.Set 2 9 0 (Entity.construct (fun _ => (0 : Nat)) (fun _ => none)
        [0, 2] WState.init).2).trie
      = (Entity.construct (fun _ => (0 : Nat)) (fun _ => none) [0, 2]
          WState.init).2.trie ∧
     (Entity.Set 2 9 0 (Entity.construct (fun _ => (0 : Nat)) (fun _ => none)
        [0, 2] WState.init).2).nextId
      = (Entity.construct (fun _ => (0 : Nat)) (fun _ => none) [0, 2]
          WState.init).2.nextId ∧
     FMap.keys (Entity.Set 2 9 0 (Entity.construct (fun _ => (0 : Nat))
        (fun _ => none) [0, 2] WState.init).2).store
      = FMap.keys (Entity.construct (fun _ => (0 : Nat)) (fun _ => none) [0, 2]
          WState.init).2.store ∧
     (∀ m, m ≠ 5 →
       FMap.find? (Entity.Set 2 9 0 (Entity.construct (fun _ => (0 : Nat))
          (fun _ => none) [0, 2] WState.init).2).store m
        = FMap.find? (Entity.construct (fun _ => (0 : Nat)) (fun _ => none)
            [0, 2] WState.init).2.store m) ∧
     FMap.find? (Entity.Set 2 9 0 (Entity.construct (fun _ => (0 : Nat))
        (fun _ => none) [0, 2] WState.init).2).store 5
      = some (Archetype.Set [(0, [(0, 0)]), (2, [(0, 0)])] 2 0 9) ∧
     (∀ c', c' ≠ 2 →
       FMap.find? (Archetype.Set ([(0, [(0, 0)]), (2, [(0, 0)])] : Archetype Nat)
          2 0 9) c' = FMap.find? ([(0, [(0, 0)]), (2, [(0, 0)])] : Archetype Nat) c') ∧
     FMap.find? (Archetype.Set ([(0, [(0, 0)]), (2, [(0, 0)])] : Archetype Nat)
        2 0 9) 2 = some (FMap.set [(0, 0)] 0 9) ∧
     (∀ e, e ≠ 0 → FMap.find? (FMap.set ([(0, 0)] : FMap entity_t Nat) 0 9) e
        = FMap.find? ([(0, 0)] : FMap entity_t Nat) e) ∧
     FMap.find? (FMap.set ([(0, 0)] : FMap entity_t Nat) 0 9) 0 = some 9) :=
  ⟨by decide, by decide, by decide,
   C9_set_frame Nat
     (Entity.construct (fun _ => (0 : Nat)) (fun _ => none) [0, 2] WState.init).2
     0 5 [(0, [(0, 0)]), (2, [(0, 0)])] [(0, 0)] 2 9
     (by decide) (by decide) (by decide)⟩

/-****************************************************************************-/
/- CLAIM THEOREMS: HANDLE DESTRUCTION (C2)                                    -/
/-****************************************************************************-/

/-- C2 (counterexample): after constructing an entity of shape `{0}`
(entity id 0, mask 1) and destroying it, the entity id is still
present in the Entity Registry with its old mask — `World::Unregister`
only calls `drop_row` and never erases the id from
`s_entity_archetype_map`, contradicting the claim that destruction
removes the entity id from the Entity Registry. -/
theorem C2_destroy_counterexample :
    FMap.find?
      (Entity.destruct [0] 0
        (Entity.construct (fun _ => (0 : Nat)) (fun _ => none) [0]
          WState.init).2).registry 0 = some 1 := by
  decide

/-- C2 (amended): destroying a live entity handle erases the entity's
cell from every column of its archetype table and leaves the
Archetype Table itself in the store (even if it becomes empty), but
the entity id is NOT removed from the Entity Registry: the registry
is unchanged (`Unregister` never erases from
`s_entity_archetype_map`).  `hcids` states that every column of the
table belongs to the handle's shape, which holds for every table the
code creates. -/
theorem C2_destroy_amended (V : Type) (s : WState V)
    (shape : List component_id_t) (id : entity_t)
    (mask : component_bitfield_t) (a : Archetype V)
    (hreg : FMap.find? s.registry id = some mask)
    (hstore : FMap.find? s.store mask = some a)
    (hcids : ∀ c, (FMap.find? a c).isSome = true → c ∈ shape) :
    FMap.find? (Entity.destruct shape id s).store mask
      = some (drop_row shape a id) ∧
    (∀ c col', FMap.find? (drop_row shape a id) c = some col' →
      FMap.find? col' id = none) ∧
    FMap.keys (Entity.destruct shape id s).store = FMap.keys s.store ∧
    mask ∈ FMap.keys (Entity.destruct shape id s).store ∧
    (Entity.destruct shape id s).registry = s.registry ∧
    (Entity.destruct shape id s).trie = s.trie := by
  have hun : Entity.destruct shape id s
      = { nextId := s.nextId, trie := s.trie,
          store := FMap.set s.store mask (drop_row shape a id),
          registry := s.registry } := by
    simp only [Entity.destruct, Unregister, FMap.subscript_of_find? hreg,
               FMap.subscript_of_find? hstore]
  have hkeys : FMap.keys (FMap.set s.store mask (drop_row shape a id))
      = FMap.keys s.store :=
    FMap.keys_set_of_mem _ (FMap.mem_keys_of_find? hstore)
  refine ⟨?_, ?_, ?_, ?_, ?_, ?_⟩
  · rw [hun]
    exact FMap.find?_set_self _ _ _
  · intro c col' hcol'
    by_cases hc : c ∈ shape
    · exact drop_row_spec shape a id c hc col' hcol'
    · rw [drop_row_find?_not_mem shape a id hc] at hcol'
      exact absurd (hcids c (by rw [hcol']; rfl)) hc
  · rw [hun]
    exact hkeys
  · rw [hun]
    exact hkeys ▸ FMap.mem_keys_of_find? hstore
  · rw [hun]
  · rw [hun]

theorem C2_destroy_amended_witness :
    FMap.find?
        (Entity.construct (fun _ => (0 : Nat)) (fun _ => none) [0]
          WState.init).2.registry 0 = some 1 ∧
    FMap.find?
        (Entity.construct (fun _ => (0 : Nat)) (fun _ => none) [0]
          WState.init).2.store 1 = some [(0, [(0, 0)])] ∧
    (FMap.find? (Entity.destruct [0] 0
        (Entity.construct (fun _ => (0 : Nat)) (fun _ => none) [0]
          WState.init).2).store 1
      = some (drop_row [0] [(0, [(0, 0)])] 0) ∧
     (∀ c col', FMap.find? (drop_row [0] ([(0, [(0, 0)])] : Archetype Nat) 0) c
        = some col' → FMap.find? col' 0 = none) ∧
     FMap.keys (Entity.destruct [0] 0
        (Entity.construct (fun _ => (0 : Nat)) (fun _ => none) [0]
          WState.init).2).store
      = FMap.keys (Entity.construct (fun _ => (0 : Nat)) (fun _ => none) [0]
          WState.init).2.store ∧
     1 ∈ FMap.keys (Entity.destruct [0] 0
        (Entity.construct (fun _ => (0 : Nat)) (fun _ => none) [0]
          WState.init).2).store ∧
     (Entity.destruct [0] 0
        (Entity.construct (fun _ => (0 : Nat)) (fun _ => none) [0]
          WState.init).2).registry
      = (Entity.construct (fun _ => (0 : Nat)) (fun _ => none) [0]
          WState.init).2.registry ∧
     (Entity.destruct [0] 0
        (Entity.construct (fun _ => (0 : Nat)) (fun _ => none) [0]
          WState.init).2).trie
      = (Entity.construct (fun _ => (0 : Nat)) (fun _ => none) [0]
          WState.init).2.trie) :=
  ⟨by decide, by decide,
   C2_destroy_amended Nat
     (Entity.construct (fun _ => (0 : Nat)) (fun _ => none) [0] WState.init).2
     [0] 0 1 [(0, [(0, 0)])] (by decide) (by decide)
     (fun c hc => by
        by_cases h : (0 : Nat) = c
        · exact h ▸ List.mem_cons_self 0 []
        · rw [show FMap.find? ([(0, [(0, (0 : Nat))])] : Archetype Nat) c = none
            from by simp [FMap.find?, h]] at hc
          cases hc)⟩

/-****************************************************************************-/
/- CLAIM THEOREMS: INDEX COMPLETENESS (C3)                                    -/
/-****************************************************************************-/

/-- One database operation through the public `Entity` interface. -/
inductive WOp (V : Type) where
  | construct (shape : List component_id_t) (dflt : component_id_t → Option V)
  | getC (id : entity_t) (c : component_id_t)
  | setC (id : entity_t) (c : component_id_t) (v : V)
  | hasC (id : entity_t) (c : component_id_t)
  | destroy (id : entity_t) (shape : List component_id_t)

/-- The effect of one operation on the world state. -/
def WOp.step (vinit : component_id_t → V) (s : WState V) : WOp V → WState V
  | .construct shape dflt => (Entity.construct vinit dflt shape s).2
  | .getC id c => (Entity.Get vinit c id s).2
  | .setC id c v => Entity.Set c v id s
  | .hasC id c => (Entity.HasComponent c id s).2
  | .destroy id shape => Entity.destruct shape id s

/-- An operation is valid when it only goes through a previously
constructed handle, i.e. its entity id is registered.  Construction
registers the id and `Unregister` never erases it, so every
constructed handle's id stays in the registry. -/
def WOp.valid (s : WState V) : WOp V → Bool
  | .construct _ _ => true
  | .getC id _ => decide (id ∈ FMap.keys s.registry)
  | .setC id _ _ => decide (id ∈ FMap.keys s.registry)
  | .hasC id _ => decide (id ∈ FMap.keys s.registry)
  | .destroy id _ => decide (id ∈ FMap.keys s.registry)

/-- Run a sequence of operations from a state. -/
def runOps (vinit : component_id_t → V) : WState V → List (WOp V) → WState V
  | s, [] => s
  | s, op :: rest => runOps vinit (WOp.step vinit s op) rest

/-- Check a whole sequence for validity, step by step. -/
def validFrom (vinit : component_id_t → V) : WState V → List (WOp V) → Bool
  | _, [] => true
  | s, op :: rest => WOp.valid s op && validFrom vinit (WOp.step vinit s op) rest

/-- The state invariant behind P2/P3: the trie's masks are exactly the
store's keys, and every mask recorded in the registry has a table. -/
def WInv (s : WState V) : Prop :=
  (∀ m, m ∈ s.trie ↔ m ∈ FMap.keys s.store) ∧
  (∀ id mask, FMap.find? s.registry id = some mask → mask ∈ FMap.keys s.store)

theorem FMap.find?_insertStd_cases [DecidableEq α] {m : FMap α β}
    {k k' : α} {v w : β}
    (h : FMap.find? (FMap.insertStd m k v) k' = some w) :
    FMap.find? m k' = some w ∨ w = v := by
  cases hr : FMap.find? m k with
  | some u =>
    rw [FMap.insertStd_of_find? hr] at h
    exact Or.inl h
  | none =>
    rw [FMap.insertStd_of_none hr] at h
    rcases FMap.find?_append_cases h with h1 | h1
    · exact Or.inl h1
    · exact Or.inr h1.2

theorem FMap.keys_append_single (m : FMap α β) (k : α) (v : β) :
    FMap.keys (m ++ [(k, v)]) = FMap.keys m ++ [k] := by
  simp [FMap.keys]

/-- Rewriting the table stored under an already present mask keeps the
invariant (trie and registry untouched). -/
theorem WInv_store_update {s : WState V} {mask : component_bitfield_t}
    (h : WInv s) (hmem : mask ∈ FMap.keys s.store) (X : Archetype V) :
    WInv { s with store := FMap.set s.store mask X } := by
  obtain ⟨h1, h2⟩ := h
  constructor
  · intro m
    show m ∈ s.trie ↔ m ∈ FMap.keys (FMap.set s.store mask X)
    rw [FMap.keys_set_of_mem _ hmem]
    exact h1 m
  · intro id' mask' hf
    show mask' ∈ FMap.keys (FMap.set s.store mask X)
    rw [FMap.keys_set_of_mem _ hmem]
    exact h2 id' mask' hf

theorem WInv_Register (vinit : component_id_t → V)
    (dflt : component_id_t → Option V) (shape : List component_id_t)
    (id : entity_t) {s : WState V} (h : WInv s) :
    WInv (Register vinit dflt shape id s) := by
  obtain ⟨h1, h2⟩ := h
  cases hm : FMap.find? s.store (ecs_component_mask shape) with
  | some a =>
    rw [Register_eq_some hm]
    have hmem := FMap.mem_keys_of_find? hm
    constructor
    · intro m
      show m ∈ s.trie ↔ m ∈ FMap.keys (FMap.set s.store (ecs_component_mask shape) _)
      rw [FMap.keys_set_of_mem _ hmem]
      exact h1 m
    · intro id' mask' hf
      show mask' ∈ FMap.keys (FMap.set s.store (ecs_component_mask shape) _)
      rw [FMap.keys_set_of_mem _ hmem]
      rcases FMap.find?_insertStd_cases hf with h3 | h3
      · exact h2 id' mask' h3
      · exact h3 ▸ hmem
  | none =>
    rw [Register_eq_none hm]
    have hnot : ecs_component_mask shape ∉ FMap.keys s.store :=
      (FMap.find?_eq_none_iff s.store _).mp hm
    have hmem : ecs_component_mask shape
        ∈ FMap.keys (s.store ++ [(ecs_component_mask shape, Archetype.ofShape shape)]) := by
      rw [FMap.keys_append_single]
      simp
    have hkeys : ∀ m : component_bitfield_t,
        m ∈ FMap.keys (FMap.set
          (s.store ++ [(ecs_component_mask shape, Archetype.ofShape shape)])
          (ecs_component_mask shape)
          (add_row vinit dflt shape (Archetype.ofShape shape) id))
        ↔ m ∈ FMap.keys s.store ∨ m = ecs_component_mask shape := by
      intro m
      rw [FMap.keys_set_of_mem _ hmem, FMap.keys_append_single]
      simp
    constructor
    · intro m
      show m ∈ s.trie ++ [ecs_component_mask shape] ↔ _
      rw [hkeys m]
      simp only [List.mem_append, List.mem_singleton]
      exact or_congr (h1 m) Iff.rfl
    · intro id' mask' hf
      rw [hkeys mask']
      rcases FMap.find?_insertStd_cases hf with h3 | h3
      · exact Or.inl (h2 id' mask' h3)
      · exact Or.inr h3

/-- A registered id has a table under its registered mask. -/
theorem WInv_live_table {s : WState V} (h : WInv s) {id : entity_t}
    (hid : id ∈ FMap.keys s.registry) :
    ∃ mask a, FMap.find? s.registry id = some mask ∧
      FMap.find? s.store mask = some a := by
  obtain ⟨mask, hmask⟩ := Option.isSome_iff_exists.mp
    ((FMap.find?_isSome_iff_mem_keys s.registry id).mpr hid)
  obtain ⟨a, ha⟩ := Option.isSome_iff_exists.mp
    ((FMap.find?_isSome_iff_mem_keys s.store mask).mpr (h.2 id mask hmask))
  exact ⟨mask, a, hmask, ha⟩

theorem WInv_step (vinit : component_id_t → V) {s : WState V} {op : WOp V}
    (h : WInv s) (hv : WOp.valid s op = true) :
    WInv (WOp.step vinit s op) := by
  cases op with
  | construct shape dflt =>
    exact WInv_Register vinit dflt shape (s.nextId % 2 ^ 64)
      (s := { s with nextId := (s.nextId % 2 ^ 64 + 1) % 2 ^ 64 }) ⟨h.1, h.2⟩
  | getC id c =>
    obtain ⟨mask, a, hreg, hstore⟩ :=
      WInv_live_table h (of_decide_eq_true hv)
    have hstep : WOp.step vinit s (WOp.getC id c)
        = { s with store := FMap.set s.store mask (Archetype.Get a c (vinit c) id).2 } := by
      simp only [WOp.step, Entity.Get, FMap.subscript_of_find? hreg,
                 FMap.subscript_of_find? hstore]
    rw [hstep]
    exact WInv_store_update h (FMap.mem_keys_of_find? hstore) _
  | setC id c v =>
    obtain ⟨mask, a, hreg, hstore⟩ :=
      WInv_live_table h (of_decide_eq_true hv)
    have hstep : WOp.step vinit s (WOp.setC id c v)
        = { s with store := FMap.set s.store mask (Archetype.Set a c id v) } := by
      simp only [WOp.step, Entity.Set, FMap.subscript_of_find? hreg,
                 FMap.subscript_of_find? hstore]
    rw [hstep]
    exact WInv_store_update h (FMap.mem_keys_of_find? hstore) _
  | hasC id c =>
    obtain ⟨mask, a, hreg, hstore⟩ :=
      WInv_live_table h (of_decide_eq_true hv)
    have hstep : WOp.step vinit s (WOp.hasC id c) = s := by
      simp only [WOp.step, Entity.HasComponent, FMap.subscript_of_find? hreg]
    rw [hstep]
    exact h
  | destroy id shape =>
    obtain ⟨mask, a, hreg, hstore⟩ :=
      WInv_live_table h (of_decide_eq_true hv)
    have hstep : WOp.step vinit s (WOp.destroy id shape)
        = { s with store := FMap.set s.store mask (drop_row shape a id) } := by
      simp only [WOp.step, Entity.destruct, Unregister,
                 FMap.subscript_of_find? hreg, FMap.subscript_of_find? hstore]
    rw [hstep]
    exact WInv_store_update h (FMap.mem_keys_of_find? hstore) _

theorem WInv_runOps (vinit : component_id_t → V) (ops : List (WOp V)) :
    ∀ s : WState V, WInv s → validFrom vinit s ops = true →
      WInv (runOps vinit s ops) := by
  induction ops with
  | nil => exact fun s h _ => h
  | cons op rest ih =>
    intro s h hv
    rw [validFrom] at hv
    obtain ⟨hv1, hv2⟩ := Bool.and_eq_true_iff.mp hv
    rw [runOps]
    exact ih _ (WInv_step vinit h hv1) hv2

theorem WInv_init : WInv (WState.init (V := V)) := by
  constructor
  · intro m
    simp [WState.init, FMap.keys]
  · intro id mask h
    exact Option.noConfusion h

/-- C3: at every state reachable from the empty world by a sequence
of entity constructions, `Get`/`Set`/`HasComponent` calls and
destructions through live handles, the set of bitmasks stored in the
Archetype Index trie equals exactly the set of keys of the Archetype
Store map. -/
theorem C3_index_completeness (V : Type) (vinit : component_id_t → V)
    (ops : List (WOp V))
    (hv : validFrom vinit WState.init ops = true) :
    ∀ m, m ∈ (runOps vinit WState.init ops).trie ↔
      m ∈ FMap.keys (runOps vinit WState.init ops).store :=
  (WInv_runOps vinit ops WState.init WInv_init hv).1

theorem C3_index_completeness_witness :
    validFrom (fun _ => (0 : Nat)) WState.init
      [WOp.construct [0] (fun _ => none), WOp.setC 0 0 5, WOp.getC 0 0,
       WOp.hasC 0 1, WOp.destroy 0 [0],
       WOp.construct [0, 1] (fun _ => none)] = true ∧
    (∀ m, m ∈ (runOps (fun _ => (0 : Nat)) WState.init
        [WOp.construct [0] (fun _ => none), WOp.setC 0 0 5, WOp.getC 0 0,
         WOp.hasC 0 1, WOp.destroy 0 [0],
         WOp.construct [0, 1] (fun _ => none)]).trie ↔
      m ∈ FMap.keys (runOps (fun _ => (0 : Nat)) WState.init
        [WOp.construct [0] (fun _ => none), WOp.setC 0 0 5, WOp.getC 0 0,
         WOp.hasC 0 1, WOp.destroy 0 [0],
         WOp.construct [0, 1] (fun _ => none)]).store) :=
  ⟨by decide,
   C3_index_completeness Nat (fun _ => 0)
     [WOp.construct [0] (fun _ => none), WOp.setC 0 0 5, WOp.getC 0 0,
      WOp.hasC 0 1, WOp.destroy 0 [0],
      WOp.construct [0, 1] (fun _ => none)] (by decide)⟩

/-****************************************************************************-/
/- COLUMN SET ITERATOR AND COMPONENTS VIEW                                    -/
/-****************************************************************************-/

/-- Model of `ColumnSetIterator<Components...>`: the tuple of per-column map
iterators, modelled as the per-column lists of remaining
`(entity, value)` entries, one list per queried component, in pack
order (an iterator into a column is identified with the suffix of the
column it has not yet passed). -/
structure CSI (V : Type) where
  cols : List (List (entity_t × V))

/-- Model of `operator==` against the end iterator: a fold of per-column
iterator comparisons over the pack.  Each column iterator equals its
end iff its remaining entries are exhausted; for an empty component
pack the fold is vacuously `true`. -/
def CSI.atEnd (it : CSI V) : Bool :=
  it.cols.all (fun c => c.isEmpty)

/-- Model of `operator++`: advance every column's iterator. -/
def CSI.step (it : CSI V) : CSI V :=
  ⟨it.cols.map List.tail⟩

/-- The current entries of all columns, when every column has one. -/
def CSI.heads? : List (List (entity_t × V)) → Option (List (entity_t × V))
  | [] => some []
  | col :: rest =>
    match col with
    | [] => none
    | e :: _ =>
      match CSI.heads? rest with
      | none => none
      | some hs => some (e :: hs)

/-- Model of `operator*`: the entity id of the first column's current entry
together with every column's current value.  `none` when a column has
no current entry (the dereference would be out of contract). -/
def CSI.deref? (it : CSI V) : Option (entity_t × List V) :=
  match CSI.heads? it.cols with
  | none => none
  | some [] => none
  | some (e :: es) => some (e.1, (e :: es).map Prod.snd)

/-- Total number of remaining entries, the termination measure. -/
def CSI.len (it : CSI V) : Nat :=
  (it.cols.map List.length).sum

theorem CSI.heads?_ne_nil {ls : List (List (entity_t × V))}
    {hs : List (entity_t × V)} (h : CSI.heads? ls = some hs) :
    ∀ c ∈ ls, c ≠ [] := by
  induction ls generalizing hs with
  | nil => intro c hc; simp at hc
  | cons col rest ih =>
    intro c hc
    match col, h with
    | e :: t, h =>
      cases hr : CSI.heads? rest with
      | none => rw [CSI.heads?, hr] at h; cases h
      | some hs' =>
        rcases List.mem_cons.mp hc with h1 | h1
        · subst h1; simp
        · exact ih hr c h1

theorem CSI.heads?_total {ls : List (List (entity_t × V))}
    (h : ∀ c ∈ ls, c ≠ []) :
    ∃ hs, CSI.heads? ls = some hs ∧ hs.length = ls.length := by
  induction ls with
  | nil => exact ⟨[], rfl, rfl⟩
  | cons col rest ih =>
    obtain ⟨hs, hhs, hlen⟩ := ih (fun c hc => h c (List.mem_cons_of_mem col hc))
    match col, h col (List.mem_cons_self col rest) with
    | e :: t, _ =>
      refine ⟨e :: hs, ?_, by simp [hlen]⟩
      rw [CSI.heads?, hhs]

theorem CSI.deref?_some_not_atEnd {it : CSI V} {r : entity_t × List V}
    (h : it.deref? = some r) : it.atEnd = false := by
  unfold CSI.deref? at h
  cases hh : CSI.heads? it.cols with
  | none => rw [hh] at h; cases h
  | some hs =>
    rw [hh] at h
    match hs, h with
    | e :: es, h =>
      have hne := CSI.heads?_ne_nil hh
      cases hc : it.cols with
      | nil => rw [hc] at hh; cases hh
      | cons c₀ rest =>
        have h₀ : c₀ ≠ [] := hne c₀ (hc ▸ List.mem_cons_self c₀ rest)
        unfold CSI.atEnd
        rw [hc]
        simp [List.all_cons, List.isEmpty_iff, h₀]

theorem CSI.deref?_some_len_pos {it : CSI V} {r : entity_t × List V}
    (h : it.deref? = some r) : 0 < it.len := by
  have hend := CSI.deref?_some_not_atEnd h
  unfold CSI.atEnd at hend
  obtain ⟨c, hc, hne⟩ := List.all_eq_false.mp hend
  have hpos : 0 < c.length := by
    cases c with
    | nil => simp at hne
    | cons x t => simp
  calc 0 < c.length := hpos
    _ ≤ it.len := by
      unfold CSI.len
      exact List.single_le_sum (fun x _ => Nat.zero_le x) _
        (List.mem_map_of_mem List.length hc)

theorem sum_map_tail_le (ls : List (List γ)) :
    ((ls.map List.tail).map List.length).sum ≤ (ls.map List.length).sum := by
  induction ls with
  | nil => simp
  | cons c rest ih =>
    simp only [List.map_cons, List.sum_cons]
    refine Nat.add_le_add ?_ ih
    rw [List.length_tail]
    omega

theorem sum_map_tail_lt (ls : List (List γ))
    (h : ls.all (fun c => c.isEmpty) = false) :
    ((ls.map List.tail).map List.length).sum < (ls.map List.length).sum := by
  induction ls with
  | nil => simp [List.all_nil] at h
  | cons c rest ih =>
    simp only [List.map_cons, List.sum_cons]
    rw [List.all_cons] at h
    rcases Bool.and_eq_false_iff.mp h with h1 | h1
    · have hc : c ≠ [] := by
        intro he
        rw [he] at h1
        simp at h1
      have hlt : (List.tail c).length < c.length := by
        rw [List.length_tail]
        have := List.length_pos.mpr hc
        omega
      exact Nat.add_lt_add_of_lt_of_le hlt (sum_map_tail_le rest)
    · refine Nat.add_lt_add_of_le_of_lt ?_ (ih h1)
      rw [List.length_tail]
      omega

theorem CSI.step_len_lt {it : CSI V} (h : it.atEnd = false) :
    it.step.len < it.len :=
  sum_map_tail_lt it.cols h

/-- The row sequence a `ColumnSetIterator` pair (current iterator,
end sentinel) traverses: advance with `operator++`, dereference with
`operator*`, stop at the sentinel (or at an undereferenceable row,
which is out of contract). -/
def csiRun (it : CSI V) : List (entity_t × List V) :=
  if h : it.atEnd = true then []
  else
    match it.deref? with
    | none => []
    | some r => r :: csiRun it.step
termination_by it.len
decreasing_by
  exact CSI.step_len_lt (Bool.not_eq_true _ ▸ h)

/-- Model of `components_view::Iterator::GeneratorContext::Stage`. -/
inductive Stage where
  | eBeginArchetype
  | eNextArchetype
  | eNextRow
  | eFinished
deriving DecidableEq

/-- Model of `components_view::Iterator::GeneratorContext`: the stage, the
remaining archetype masks of the trie-view enumeration (the head is
the current one; the sentinel is the empty suffix), and the current
column-set iterator. -/
structure GeneratorContext (V : Type) where
  m_stage : Stage
  archs : List component_bitfield_t
  m_curr_row : CSI V

/-- The `eBeginArchetype` entry of `next_row` (also reached from
`eNextArchetype` by falling through after advancing): stop at the
archetype sentinel, otherwise open the current archetype's column-set
iterator; when that iterator is immediately exhausted, advance to the
next archetype and start over.  `lookup m` is
`s_component_archetype_map[m].begin<Components...>()` (paired with
its end sentinel). -/
def beginArchetype (lookup : component_bitfield_t → CSI V) :
    List component_bitfield_t → GeneratorContext V
  | [] => ⟨Stage.eFinished, [], ⟨[]⟩⟩
  | m :: rest =>
    let row := lookup m
    if row.atEnd = true then beginArchetype lookup rest
    else ⟨Stage.eNextRow, m :: rest, row⟩

/-- Model of `components_view::Iterator::next_row`. -/
def next_row (lookup : component_bitfield_t → CSI V)
    (ctx : GeneratorContext V) : GeneratorContext V :=
  match ctx.m_stage with
  | Stage.eNextArchetype => beginArchetype lookup ctx.archs.tail
  | Stage.eBeginArchetype => beginArchetype lookup ctx.archs
  | Stage.eNextRow =>
    let row := ctx.m_curr_row.step
    if row.atEnd = true then beginArchetype lookup ctx.archs.tail
    else ⟨Stage.eNextRow, ctx.archs, row⟩
  | Stage.eFinished => ctx

/-- The iterator built by `components_view::begin()`: stage
`eBeginArchetype` over the archetype enumeration, with `next_row` run
once by the constructor. -/
def viewBegin (lookup : component_bitfield_t → CSI V)
    (archs : List component_bitfield_t) : GeneratorContext V :=
  next_row lookup ⟨Stage.eBeginArchetype, archs, ⟨[]⟩⟩

theorem beginArchetype_archs_le (lookup : component_bitfield_t → CSI V)
    (l : List component_bitfield_t) :
    (beginArchetype lookup l).archs.length ≤ l.length := by
  induction l with
  | nil => exact Nat.le_refl 0
  | cons m rest ih =>
    rw [beginArchetype]
    by_cases h : (lookup m).atEnd = true
    · simp only [h, if_true]
      exact Nat.le_succ_of_le ih
    · simp [h]

/-- The rows yielded by iterating from a generator context until the
finished sentinel: dereference at `eNextRow`, advance with
`next_row`, compare equal to `end()` exactly when finished. -/
def viewCollect (lookup : component_bitfield_t → CSI V)
    (ctx : GeneratorContext V) : List (entity_t × List V) :=
  if ctx.m_stage = Stage.eNextRow then
    match hd : ctx.m_curr_row.deref? with
    | none => []
    | some r => r :: viewCollect lookup (next_row lookup ctx)
  else []
termination_by (ctx.archs.length, ctx.m_curr_row.len)
decreasing_by
  rename_i hs
  have hnr : next_row lookup ctx
      = (if ctx.m_curr_row.step.atEnd = true
          then beginArchetype lookup ctx.archs.tail
          else ⟨Stage.eNextRow, ctx.archs, ctx.m_curr_row.step⟩) := by
    simp only [next_row, hs]
  by_cases hend : ctx.m_curr_row.step.atEnd = true
  · rw [hnr, if_pos hend]
    cases harchs : ctx.archs with
    | nil =>
      exact Prod.Lex.right _ (CSI.deref?_some_len_pos hd)
    | cons m rest =>
      exact Prod.Lex.left _ _
        (Nat.lt_succ_of_le (beginArchetype_archs_le lookup rest))
  · rw [hnr, if_neg hend]
    exact Prod.Lex.right _ (CSI.step_len_lt (CSI.deref?_some_not_atEnd hd))

/-- Model of `components_view` iteration as a whole: `begin()` then collect
until `end()`. -/
def viewIterate (lookup : component_bitfield_t → CSI V)
    (archs : List component_bitfield_t) : List (entity_t × List V) :=
  viewCollect lookup (viewBegin lookup archs)

/-- Model of `TypeErasedArchetype::begin<Components...>()`: the tuple of the
queried components' column iterators, in pack order. -/
def archColumns (Q : List component_id_t) (a : Archetype V) : CSI V :=
  ⟨Q.map (fun c => (FMap.find? a c).getD [])⟩

/-- The column-set iterator the view opens on the archetype stored
under mask `m`: `s_component_archetype_map[m]` then
`begin<Components...>()`. -/
def storeCSI (store : FMap component_bitfield_t (Archetype V))
    (Q : List component_id_t) (m : component_bitfield_t) : CSI V :=
  archColumns Q ((FMap.find? store m).getD [])

theorem csiRun_of_atEnd {it : CSI V} (h : it.atEnd = true) : csiRun it = [] := by
  conv_lhs => rw [csiRun.eq_def]
  simp [h]

theorem csiRun_of_deref_none {it : CSI V} (h : it.deref? = none) :
    csiRun it = [] := by
  conv_lhs => rw [csiRun.eq_def]
  by_cases ha : it.atEnd = true <;> simp [ha, h]

theorem csiRun_of_deref_some {it : CSI V} {r : entity_t × List V}
    (h : it.deref? = some r) : csiRun it = r :: csiRun it.step := by
  have ha := CSI.deref?_some_not_atEnd h
  conv_lhs => rw [csiRun.eq_def]
  simp [ha, h]

theorem viewCollect_not_nextRow (lookup : component_bitfield_t → CSI V)
    {ctx : GeneratorContext V} (h : ¬ ctx.m_stage = Stage.eNextRow) :
    viewCollect lookup ctx = [] := by
  conv_lhs => rw [viewCollect.eq_def]
  simp [h]

theorem viewCollect_none (lookup : component_bitfield_t → CSI V)
    {ctx : GeneratorContext V} (hs : ctx.m_stage = Stage.eNextRow)
    (h : ctx.m_curr_row.deref? = none) : viewCollect lookup ctx = [] := by
  conv_lhs => rw [viewCollect.eq_def]
  rw [if_pos hs]
  split
  · rfl
  · rename_i r heq
    rw [h] at heq
    cases heq

theorem viewCollect_some (lookup : component_bitfield_t → CSI V)
    {ctx : GeneratorContext V} (hs : ctx.m_stage = Stage.eNextRow)
    {r : entity_t × List V} (h : ctx.m_curr_row.deref? = some r) :
    viewCollect lookup ctx = r :: viewCollect lookup (next_row lookup ctx) := by
  conv_lhs => rw [viewCollect.eq_def]
  rw [if_pos hs]
  split
  · rename_i heq
    rw [h] at heq
    cases heq
  · rename_i r' heq
    rw [h] at heq
    cases heq
    rfl

/-- The lockstep length property of sibling columns (P5, guaranteed by
the shared insert/erase histories of the columns of one table): every
queried column has the same number of remaining entries. -/
def CSI.uniform (it : CSI V) : Prop :=
  ∃ n, ∀ c ∈ it.cols, c.length = n

theorem CSI.uniform_step {it : CSI V} (h : it.uniform) : it.step.uniform := by
  obtain ⟨n, hn⟩ := h
  refine ⟨n - 1, ?_⟩
  intro c hc
  obtain ⟨c₀, hc₀, rfl⟩ := List.mem_map.mp hc
  rw [List.length_tail, hn c₀ hc₀]

theorem CSI.uniform_deref {it : CSI V} (hu : it.uniform)
    (he : it.atEnd = false) : ∃ r, it.deref? = some r := by
  obtain ⟨c, hc, hne⟩ := List.all_eq_false.mp he
  obtain ⟨n, hn⟩ := hu
  have hcne : c ≠ [] := by
    intro h
    rw [h] at hne
    simp at hne
  have hnpos : 0 < n := hn c hc ▸ List.length_pos.mpr hcne
  have hall : ∀ d ∈ it.cols, d ≠ [] := by
    intro d hd hdnil
    have := hn d hd
    rw [hdnil] at this
    simp at this
    omega
  obtain ⟨hs, hhs, hlen⟩ := CSI.heads?_total hall
  cases hcols : it.cols with
  | nil =>
    rw [hcols] at hc
    cases hc
  | cons d rest =>
    rw [hcols] at hhs hlen
    cases hs with
    | nil => simp at hlen
    | cons e es =>
      refine ⟨(e.1, (e :: es).map Prod.snd), ?_⟩
      unfold CSI.deref?
      rw [hcols, hhs]

/-- Collecting from a `eNextRow` context exhausts the current
archetype's rows, then continues with the remaining archetypes. -/
theorem collect_nextRow (lookup : component_bitfield_t → CSI V)
    (m : component_bitfield_t) (rest : List component_bitfield_t) :
    ∀ (n : Nat) (it : CSI V), it.len = n → it.uniform → it.atEnd = false →
      viewCollect lookup ⟨Stage.eNextRow, m :: rest, it⟩
        = csiRun it ++ viewCollect lookup (beginArchetype lookup rest) := by
  intro n
  induction n using Nat.strong_induction_on with
  | _ n ih =>
    intro it hlen hu hend
    obtain ⟨r, hr⟩ := CSI.uniform_deref hu hend
    have hs : (⟨Stage.eNextRow, m :: rest, it⟩ : GeneratorContext V).m_stage
        = Stage.eNextRow := rfl
    rw [viewCollect_some lookup hs hr, csiRun_of_deref_some hr]
    have hnr : next_row lookup ⟨Stage.eNextRow, m :: rest, it⟩
        = (if it.step.atEnd = true then beginArchetype lookup rest
           else ⟨Stage.eNextRow, m :: rest, it.step⟩) := by
      simp only [next_row, List.tail_cons]
    by_cases hend' : it.step.atEnd = true
    · rw [hnr, if_pos hend', csiRun_of_atEnd hend']
      rfl
    · rw [hnr, if_neg hend']
      rw [ih it.step.len (hlen ▸ CSI.step_len_lt hend) it.step rfl
          (CSI.uniform_step hu) (Bool.not_eq_true _ ▸ hend')]
      rfl

/-- The whole traversal of the view's state machine is the
concatenation, over the enumerated archetypes, of each archetype's
column-set rows. -/
theorem collect_beginArchetype (lookup : component_bitfield_t → CSI V) :
    ∀ archs : List component_bitfield_t,
      (∀ m ∈ archs, (lookup m).uniform) →
      viewCollect lookup (beginArchetype lookup archs)
        = archs.flatMap (fun m => csiRun (lookup m)) := by
  intro archs
  induction archs with
  | nil =>
    intro _
    rw [beginArchetype, viewCollect_not_nextRow lookup
        (fun h => Stage.noConfusion h)]
    rfl
  | cons m rest ih =>
    intro hu
    rw [beginArchetype, List.flatMap_cons]
    by_cases hend : (lookup m).atEnd = true
    · rw [if_pos hend, csiRun_of_atEnd hend,
          ih (fun m' hm' => hu m' (List.mem_cons_of_mem m hm')), List.nil_append]
    · rw [if_neg hend]
      rw [collect_nextRow lookup m rest (lookup m).len (lookup m) rfl
          (hu m (List.mem_cons_self m rest)) (Bool.not_eq_true _ ▸ hend)]
      rw [ih (fun m' hm' => hu m' (List.mem_cons_of_mem m hm'))]

theorem viewIterate_eq_flatMap (lookup : component_bitfield_t → CSI V)
    (archs : List component_bitfield_t)
    (hu : ∀ m ∈ archs, (lookup m).uniform) :
    viewIterate lookup archs = archs.flatMap (fun m => csiRun (lookup m)) :=
  collect_beginArchetype lookup archs hu

theorem map_tail_comm (f : γ → δ) (l : List γ) :
    l.tail.map f = (l.map f).tail := by
  cases l <;> rfl

/-- Under the lockstep property (every queried column carries the same
entity-id sequence `ks`), the traversed rows carry exactly the ids
`ks`, in column order. -/
theorem csiRun_keys : ∀ (ks : List entity_t) (it : CSI V),
    it.cols ≠ [] → (∀ c ∈ it.cols, c.map Prod.fst = ks) →
    (csiRun it).map Prod.fst = ks := by
  intro ks
  induction ks with
  | nil =>
    intro it hne hks
    have hend : it.atEnd = true := by
      unfold CSI.atEnd
      rw [List.all_eq_true]
      intro c hc
      have hmap := hks c hc
      cases c with
      | nil => simp
      | cons x t => simp at hmap
    rw [csiRun_of_atEnd hend]
    rfl
  | cons k ks' ih =>
    intro it hne hks
    have hall : ∀ c ∈ it.cols, c ≠ [] := by
      intro c hc hnil
      have hmap := hks c hc
      rw [hnil] at hmap
      simp at hmap
    cases hcols : it.cols with
    | nil => exact absurd hcols hne
    | cons d drest =>
      have hd : d ≠ [] := hall d (hcols ▸ List.mem_cons_self d drest)
      obtain ⟨p, dt, rfl⟩ : ∃ p dt, d = p :: dt := by
        cases d with
        | nil => exact absurd rfl hd
        | cons p dt => exact ⟨p, dt, rfl⟩
      have hdrest : ∀ c ∈ drest, c ≠ [] := by
        intro c hc
        exact hall c (hcols ▸ List.mem_cons_of_mem _ hc)
      obtain ⟨hs', hhs', _⟩ := CSI.heads?_total hdrest
      have hpk : p.1 = k := by
        have hmap := hks (p :: dt) (hcols ▸ List.mem_cons_self _ drest)
        rw [List.map_cons] at hmap
        exact (List.cons.injEq _ _ _ _ ▸ hmap).1
      have hderef : it.deref? = some (k, ((p :: hs').map Prod.snd)) := by
        unfold CSI.deref?
        rw [hcols]
        rw [show CSI.heads? ((p :: dt) :: drest) = some (p :: hs') from by
          rw [CSI.heads?, hhs']]
        show some (p.1, (p :: hs').map Prod.snd) = some (k, (p :: hs').map Prod.snd)
        rw [hpk]
      rw [csiRun_of_deref_some hderef, List.map_cons]
      have hstep : (csiRun it.step).map Prod.fst = ks' := by
        apply ih
        · show it.cols.map List.tail ≠ []
          rw [hcols]
          simp
        · intro c hc
          obtain ⟨c₀, hc₀, rfl⟩ := List.mem_map.mp hc
          rw [map_tail_comm, hks c₀ hc₀]
          rfl
      rw [hstep]

/-- When every column starts with the key `k`, the current entries
are exactly the values stored under `k` in each column. -/
theorem heads_find_eq {k : entity_t} :
    ∀ (cols : List (List (entity_t × V))) (hs : List (entity_t × V)),
      CSI.heads? cols = some hs →
      (∀ c ∈ cols, ∃ v t, c = (k, v) :: t) →
      cols.map (fun col => FMap.find? col k) = hs.map (fun p => some p.2) := by
  intro cols
  induction cols with
  | nil =>
    intro hs h _
    cases h
    rfl
  | cons col rest ih =>
    intro hs h hshape
    obtain ⟨v, t, rfl⟩ := hshape col (List.mem_cons_self col rest)
    cases hr : CSI.heads? rest with
    | none =>
      rw [CSI.heads?, hr] at h
      cases h
    | some hs' =>
      rw [CSI.heads?, hr] at h
      cases h
      rw [List.map_cons, List.map_cons]
      rw [ih hs' hr (fun c hc => hshape c (List.mem_cons_of_mem _ hc))]
      rw [show FMap.find? ((k, v) :: t) k = some v from by simp [FMap.find?]]

/-- Looking a key other than the common head key up ignores the
heads: it is the same in the tails. -/
theorem map_find_tail {k e : entity_t} (hne : e ≠ k) :
    ∀ cols : List (List (entity_t × V)),
      (∀ c ∈ cols, ∃ v t, c = (k, v) :: t) →
      cols.map (fun col => FMap.find? col e)
        = (cols.map List.tail).map (fun col => FMap.find? col e) := by
  intro cols
  induction cols with
  | nil => intro _; rfl
  | cons col rest ih =>
    intro hshape
    obtain ⟨v, t, rfl⟩ := hshape col (List.mem_cons_self col rest)
    rw [List.map_cons, List.map_cons, List.map_cons]
    rw [ih (fun c hc => hshape c (List.mem_cons_of_mem _ hc))]
    rw [show FMap.find? ((k, v) :: t) e = FMap.find? t e
        from if_neg (fun h : k = e => hne h.symm)]
    rfl

/-- Under lockstep and unique ids, every traversed row carries, for
each queried column, exactly the value that column stores under the
row's entity id. -/
theorem csiRun_vals : ∀ (ks : List entity_t) (it : CSI V),
    (∀ c ∈ it.cols, c.map Prod.fst = ks) → ks.Nodup →
    ∀ r ∈ csiRun it,
      it.cols.map (fun col => FMap.find? col r.1) = r.2.map some := by
  intro ks
  induction ks with
  | nil =>
    intro it hks _ r hr
    have hend : it.atEnd = true := by
      unfold CSI.atEnd
      rw [List.all_eq_true]
      intro c hc
      have hmap := hks c hc
      cases c with
      | nil => simp
      | cons x t => simp at hmap
    rw [csiRun_of_atEnd hend] at hr
    cases hr
  | cons k ks' ih =>
    intro it hks hnd r hr
    cases hcols : it.cols with
    | nil =>
      have hend : it.atEnd = true := by
        unfold CSI.atEnd
        rw [hcols]
        rfl
      rw [csiRun_of_atEnd hend] at hr
      cases hr
    | cons d drest =>
      have hshape : ∀ c ∈ it.cols, ∃ v t, c = (k, v) :: t := by
        intro c hc
        have hmap := hks c hc
        cases c with
        | nil => simp at hmap
        | cons p t =>
          obtain ⟨p1, p2⟩ := p
          rw [List.map_cons] at hmap
          have hp1 : p1 = k := (List.cons.injEq _ _ _ _ ▸ hmap).1
          exact ⟨p2, t, by rw [hp1]⟩
      have hall : ∀ c ∈ it.cols, c ≠ [] := by
        intro c hc hnil
        obtain ⟨v, t, he⟩ := hshape c hc
        rw [hnil] at he
        cases he
      obtain ⟨hstot, hhs, _⟩ := CSI.heads?_total hall
      obtain ⟨v₀, t₀, hd₀⟩ := hshape d (hcols ▸ List.mem_cons_self d drest)
      obtain ⟨hs', hhs', _⟩ := CSI.heads?_total (fun c hc =>
        hall c (hcols ▸ List.mem_cons_of_mem _ hc))
      have hheads : CSI.heads? it.cols = some ((k, v₀) :: hs') := by
        rw [hcols, hd₀, CSI.heads?, hhs']
      have hderef : it.deref? = some (k, (((k, v₀) :: hs').map Prod.snd)) := by
        unfold CSI.deref?
        rw [hheads]
      rw [csiRun_of_deref_some hderef] at hr
      rcases List.mem_cons.mp hr with hr1 | hr1
      · subst hr1
        rw [← hcols]
        show it.cols.map (fun col => FMap.find? col k)
          = (((k, v₀) :: hs').map Prod.snd).map some
        rw [heads_find_eq it.cols ((k, v₀) :: hs') hheads hshape]
        rw [List.map_map]
        rfl
      · have hkeys' : (csiRun it.step).map Prod.fst = ks' := by
          apply csiRun_keys
          · show it.cols.map List.tail ≠ []
            rw [hcols]
            simp
          · intro c hc
            obtain ⟨c₀, hc₀, rfl⟩ := List.mem_map.mp hc
            rw [map_tail_comm, hks c₀ hc₀]
            rfl
        have hr1k : r.1 ∈ ks' := by
          rw [← hkeys']
          exact List.mem_map_of_mem Prod.fst hr1
        have hrk : r.1 ≠ k := by
          intro he
          rw [he] at hr1k
          exact (List.nodup_cons.mp hnd).1 hr1k
        have hstepv := ih it.step
          (by
            intro c hc
            obtain ⟨c₀, hc₀, rfl⟩ := List.mem_map.mp hc
            rw [map_tail_comm, hks c₀ hc₀]
            rfl)
          (List.nodup_cons.mp hnd).2 r hr1
        rw [← hcols, map_find_tail hrk it.cols hshape]
        exact hstepv

theorem count_flatMap (e : γ) [DecidableEq γ] (f : δ → List γ) :
    ∀ l : List δ,
      ((l.flatMap f).count e) = (l.map (fun m => (f m).count e)).sum := by
  intro l
  induction l with
  | nil => rfl
  | cons m rest ih =>
    rw [List.flatMap_cons, List.count_append, ih, List.map_cons, List.sum_cons]

theorem flatMap_congr_mem (f g : δ → List γ) :
    ∀ l : List δ, (∀ a ∈ l, f a = g a) → l.flatMap f = l.flatMap g := by
  intro l
  induction l with
  | nil => intro _; rfl
  | cons a rest ih =>
    intro h
    rw [List.flatMap_cons, List.flatMap_cons, h a (List.mem_cons_self a rest),
        ih (fun b hb => h b (List.mem_cons_of_mem a hb))]

/-- Summing the per-archetype multiplicities of an entity: when the
archetypes are distinct, their id lists duplicate-free, and the
entity lives in at most one of them, the total is the indicator of
membership in some archetype. -/
theorem sum_count_unique (e : entity_t)
    (keysOf : component_bitfield_t → List entity_t) :
    ∀ archs : List component_bitfield_t, archs.Nodup →
      (∀ m ∈ archs, (keysOf m).Nodup) →
      (∀ m ∈ archs, ∀ m' ∈ archs, e ∈ keysOf m → e ∈ keysOf m' → m = m') →
      (archs.map (fun m => (keysOf m).count e)).sum
        = if ∃ m ∈ archs, e ∈ keysOf m then 1 else 0 := by
  intro archs
  induction archs with
  | nil =>
    intro _ _ _
    rw [if_neg]
    · rfl
    · rintro ⟨m, hm, _⟩
      cases hm
  | cons m₀ rest ih =>
    intro hnd hknd huniq
    have hnd' := List.nodup_cons.mp hnd
    have hrest := ih hnd'.2 (fun m hm => hknd m (List.mem_cons_of_mem m₀ hm))
      (fun m hm m' hm' h h' =>
        huniq m (List.mem_cons_of_mem m₀ hm) m' (List.mem_cons_of_mem m₀ hm') h h')
    rw [List.map_cons, List.sum_cons, hrest]
    by_cases hmem : e ∈ keysOf m₀
    · have hnorest : ¬ ∃ m ∈ rest, e ∈ keysOf m := by
        rintro ⟨m, hm, hem⟩
        have := huniq m (List.mem_cons_of_mem m₀ hm) m₀
          (List.mem_cons_self m₀ rest) hem hmem
        exact hnd'.1 (this ▸ hm)
      rw [if_neg hnorest,
          List.count_eq_one_of_mem (hknd m₀ (List.mem_cons_self m₀ rest)) hmem,
          if_pos ⟨m₀, List.mem_cons_self m₀ rest, hmem⟩]
    · rw [List.count_eq_zero_of_not_mem hmem, Nat.zero_add]
      by_cases hex : ∃ m ∈ rest, e ∈ keysOf m
      · obtain ⟨m, hm, hem⟩ := hex
        rw [if_pos ⟨m, hm, hem⟩, if_pos ⟨m, List.mem_cons_of_mem m₀ hm, hem⟩]
      · rw [if_neg hex, if_neg]
        rintro ⟨m, hm, hem⟩
        rcases List.mem_cons.mp hm with h1 | h1
        · exact hmem (h1 ▸ hem)
        · exact hex ⟨m, h1, hem⟩

/-- C1: for a non-empty query component set `Q`, assuming the
archetype-index trie enumeration yields exactly the masks `B` with
`B &&& Q == Q`, each once (`henum1`, `henum2`), and the lockstep
column invariants of the store (`hks`, `hnd`, `huniq`), iterating the
`components_view` yields each entity stored in a superset archetype
exactly once — with, for every queried component, the value its
column stores under that entity — and never an entity of an
archetype whose mask lacks a bit of `Q`. -/
theorem C1_superset_query (V : Type) (Q : List component_id_t) (hQ : Q ≠ [])
    (trie : List component_bitfield_t)
    (store : FMap component_bitfield_t (Archetype V))
    (archs : List component_bitfield_t)
    (keysOf : component_bitfield_t → List entity_t)
    (henum1 : archs.Nodup)
    (henum2 : ∀ B, B ∈ archs ↔ B ∈ trie ∧
      B &&& ecs_component_mask Q = ecs_component_mask Q)
    (hks : ∀ m ∈ archs, ∀ c ∈ (storeCSI store Q m).cols,
      c.map Prod.fst = keysOf m)
    (hnd : ∀ m ∈ archs, (keysOf m).Nodup)
    (huniq : ∀ m ∈ archs, ∀ m' ∈ archs, ∀ e : entity_t,
      e ∈ keysOf m → e ∈ keysOf m' → m = m') :
    (∀ e : entity_t,
      ((viewIterate (storeCSI store Q) archs).map Prod.fst).count e
        = if ∃ m ∈ trie,
              m &&& ecs_component_mask Q = ecs_component_mask Q ∧
              e ∈ keysOf m then 1 else 0) ∧
    (∀ r ∈ viewIterate (storeCSI store Q) archs,
      ∃ m ∈ archs, r.1 ∈ keysOf m ∧
        (storeCSI store Q m).cols.map (fun col => FMap.find? col r.1)
          = r.2.map some) := by
  have hcolsne : ∀ m : component_bitfield_t, (storeCSI store Q m).cols ≠ [] := by
    intro m he
    have : Q.map (fun c => (FMap.find? ((FMap.find? store m).getD []) c).getD [])
        = [] := he
    exact hQ (List.map_eq_nil_iff.mp this)
  have hu : ∀ m ∈ archs, (storeCSI store Q m).uniform := by
    intro m hm
    refine ⟨(keysOf m).length, ?_⟩
    intro c hc
    rw [← hks m hm c hc, List.length_map]
  have hflat : viewIterate (storeCSI store Q) archs
      = archs.flatMap (fun m => csiRun (storeCSI store Q m)) :=
    viewIterate_eq_flatMap _ archs hu
  have hkeysflat : (viewIterate (storeCSI store Q) archs).map Prod.fst
      = archs.flatMap keysOf := by
    rw [hflat, List.map_flatMap]
    exact flatMap_congr_mem _ _ archs
      (fun m hm => csiRun_keys (keysOf m) (storeCSI store Q m)
        (hcolsne m) (hks m hm))
  constructor
  · intro e
    rw [hkeysflat, count_flatMap, sum_count_unique e keysOf archs henum1 hnd
        (fun m hm m' hm' => huniq m hm m' hm' e)]
    refine if_congr ?_ rfl rfl
    constructor
    · rintro ⟨m, hm, hem⟩
      obtain ⟨htrie, hmask⟩ := (henum2 m).mp hm
      exact ⟨m, htrie, hmask, hem⟩
    · rintro ⟨m, htrie, hmask, hem⟩
      exact ⟨m, (henum2 m).mpr ⟨htrie, hmask⟩, hem⟩
  · intro r hr
    rw [hflat] at hr
    obtain ⟨m, hm, hrm⟩ := List.mem_flatMap.mp hr
    refine ⟨m, hm, ?_, ?_⟩
    · rw [← csiRun_keys (keysOf m) (storeCSI store Q m) (hcolsne m) (hks m hm)]
      exact List.mem_map_of_mem Prod.fst hrm
    · exact csiRun_vals (keysOf m) (storeCSI store Q m) (hks m hm)
        (hnd m hm) r hrm

/-- A tiny concrete store for the view witnesses: mask 1 holds a
table whose component-0 column stores entity 5, mask 2 holds a table
whose component-1 column stores entity 7. -/
def demoStore : FMap component_bitfield_t (Archetype Nat) :=
  [(1, [(0, [(5, 10)])]), (2, [(1, [(7, 20)])])]

/-- The per-archetype entity-id sequences of `demoStore`. -/
def demoKeys : component_bitfield_t → List entity_t :=
  fun m => if m = 1 then [5] else [7]

theorem C1_superset_query_witness :
    (([0] : List component_id_t) ≠ []) ∧
    ([1] : List component_bitfield_t).Nodup ∧
    (∀ B : component_bitfield_t, B ∈ ([1] : List component_bitfield_t) ↔
      B ∈ [1, 2] ∧ B &&& ecs_component_mask [0] = ecs_component_mask [0]) ∧
    (∀ m ∈ ([1] : List component_bitfield_t),
      ∀ c ∈ (storeCSI demoStore [0] m).cols, c.map Prod.fst = demoKeys m) ∧
    (∀ m ∈ ([1] : List component_bitfield_t), (demoKeys m).Nodup) ∧
    (∀ m ∈ ([1] : List component_bitfield_t),
      ∀ m' ∈ ([1] : List component_bitfield_t), ∀ e : entity_t,
        e ∈ demoKeys m → e ∈ demoKeys m' → m = m') ∧
    ((∀ e : entity_t,
      ((viewIterate (storeCSI demoStore [0]) [1]).map Prod.fst).count e
        = if ∃ m ∈ ([1, 2] : List component_bitfield_t),
              m &&& ecs_component_mask [0] = ecs_component_mask [0] ∧
              e ∈ demoKeys m then 1 else 0) ∧
     (∀ r ∈ viewIterate (storeCSI demoStore [0]) [1],
      ∃ m ∈ ([1] : List component_bitfield_t), r.1 ∈ demoKeys m ∧
        (storeCSI demoStore [0] m).cols.map (fun col => FMap.find? col r.1)
          = r.2.map some)) := by
  have henum2 : ∀ B : component_bitfield_t,
      B ∈ ([1] : List component_bitfield_t) ↔
        B ∈ [1, 2] ∧ B &&& ecs_component_mask [0] = ecs_component_mask [0] := by
    intro B
    constructor
    · intro hB
      rw [List.mem_singleton] at hB
      subst hB
      exact ⟨by decide, by decide⟩
    · rintro ⟨hB, hmask⟩
      rcases List.mem_cons.mp hB with h1 | h1
      · subst h1
        exact List.mem_singleton.mpr rfl
      · rw [List.mem_singleton] at h1
        subst h1
        exact absurd hmask (by decide)
  have huniq : ∀ m ∈ ([1] : List component_bitfield_t),
      ∀ m' ∈ ([1] : List component_bitfield_t), ∀ e : entity_t,
        e ∈ demoKeys m → e ∈ demoKeys m' → m = m' := by
    intro m hm m' hm' e _ _
    rw [List.mem_singleton] at hm hm'
    rw [hm, hm']
  exact ⟨by decide, by decide, henum2, by decide, by decide, huniq,
    C1_superset_query Nat [0] (by decide) [1, 2] demoStore [1] demoKeys
      (by decide) henum2 (by decide) (by decide) huniq⟩

/-****************************************************************************-/
/- CLAIM THEOREMS: EMPTY QUERY (C8)                                           -/
/-****************************************************************************-/

/-- With an empty component pack the column-set iterator holds no
columns, so the begin and end iterators compare equal (the `==` fold
over the pack is vacuous) and every archetype is skipped. -/
theorem viewIterate_empty_query (store : FMap component_bitfield_t (Archetype V))
    (archs : List component_bitfield_t) :
    viewIterate (storeCSI store ([] : List component_id_t)) archs = [] := by
  rw [viewIterate_eq_flatMap _ archs
      (fun m _ => ⟨0, fun c hc => by simp [storeCSI, archColumns] at hc⟩)]
  rw [flatMap_congr_mem _ (fun _ => []) archs
      (fun m _ => @csiRun_of_atEnd V (storeCSI store [] m) rfl)]
  simp

/-- C8 (counterexample): a store holding one archetype (mask 1) with
one live entity (id 5 in its component-0 column), an index of `[1]`
(all archetypes): iterating the view over the empty component set
yields no rows at all, so the live entity 5 is visited zero times,
not exactly once as the claim states. -/
theorem C8_empty_query_counterexample :
    viewIterate (storeCSI [(1, [(0, [(5, (42 : Nat))])])]
      ([] : List component_id_t)) [1] = [] ∧
    5 ∈ FMap.keys ((FMap.find? ((FMap.find?
      ([(1, [(0, [(5, (42 : Nat))])])] :
        FMap component_bitfield_t (Archetype Nat)) 1).getD []) 0).getD []) :=
  ⟨viewIterate_empty_query _ _, by decide⟩

/-- C8 (amended): a view over the empty component set matches every
archetype at the archetype-index level — every mask is a superset of
the empty mask 0 — but iterating it yields no rows at all: with zero
query columns each archetype's column-set begin and end iterators
compare equal (the per-column `==` fold over an empty pack is
vacuously true), so `next_row` skips every archetype and the view is
empty, visiting no live entity.  (In C++, dereferencing the empty
tuple iterator would not even instantiate.) -/
theorem C8_empty_query_amended (V : Type)
    (store : FMap component_bitfield_t (Archetype V))
    (archs : List component_bitfield_t) :
    (∀ B : component_bitfield_t,
      B &&& ecs_component_mask [] = ecs_component_mask []) ∧
    viewIterate (storeCSI store ([] : List component_id_t)) archs = [] :=
  ⟨fun B => Nat.and_zero B, viewIterate_empty_query store archs⟩

end pe
